import Mathlib

/-!
Shallow embedding of `src/translator.js` (Simbaclaws/simple-translator).

The source is a small JavaScript class `Translator` with state
`currentLang : string` and `translations : object`, and operations
`load`, `setLanguage`, `get`, `apply`/`translateNode`.

Modelling conventions, stated once here:

* JavaScript objects appearing as translation data are modelled by the
  inductive `LangTree`: a value is either a string (`LangTree.leaf`) or a plain
  object (`LangTree.node`), the latter an association list in property order.
  Other JSON value kinds (numbers, booleans, arrays, null) are outside the
  spec's data model (LanguageTree maps segments to template strings or
  sub-trees) and are not modelled.
* JavaScript truthiness on these values: the empty string is falsy, every
  other string and every object is truthy (`LangTree.truthy`).
* Property access `obj[i]` on a stored object is modelled in full:
  own-property lookup first (`getProp`), then the inherited
  `Object.prototype` member when `i` names one (`readProp`,
  `objectProtoNames`) — so e.g. `translations["toString"]` is truthy even
  on an empty table.  Host values obtained this way (`JsVal.host`) are
  truthy non-strings; what a further property read on such a value yields
  (`fn.call`, `fn.name`, …) is outside the model (`JsVal.index` answers
  `undefined` there, which is exact only for names that are not function
  properties).  String primitives support canonical numeric indexing
  (`strIndex`, e.g. `"hi"["0"] = "h"`); their non-index properties
  (`length`, methods) are likewise outside the model.  Every general
  theorem whose hypotheses could otherwise reach an unmodelled read
  carries the decidable walk guard `walkPlain` confining it to the
  faithful fragment.
* `text.replace(new RegExp("\x7b" + name + "\x7d", "g"), v)` is modelled
  by `replaceAll`: global left-to-right replacement of the literal token,
  with the ECMAScript `$`-pattern expansion of the replacement string
  (`expandDollar`: `$$`, `$&` and the before/after-match forms).  This
  is exactly what the source computes whenever the regex grammar reads
  the token pattern literally — true of every name made of regex-literal
  characters (`literalName`); names containing metacharacters compile to
  a different matcher and are outside the model (the behaviour the spec
  itself declares implementation-defined).
* The string an engine produces for `innerHTML = v` with `v` an inherited
  function is engine-defined; `written` uses a placeholder string for
  that case, and no settled claim depends on it.
* `console.log` / `console.warn` / `console.error` calls are modelled as a
  returned list of `LogEvent`s.
* A JavaScript `TypeError` escaping a call (the source can reach
  `text.replace` with `text` a non-string) is modelled by the result
  `GetResult.typeError`, and by a Boolean error component that aborts the
  remainder of a render pass, as a thrown exception does.
-/

/-- `isPfx pat l` decides whether `pat` is a prefix of `l` (used to model
regex matching of the literal placeholder token at a position). -/
def isPfx : List Char → List Char → Bool
  | [], _ => true
  | _ :: _, [] => false
  | a :: as, b :: bs => decide (a = b) && isPfx as bs

/-- `$`-pattern expansion of a replacement string at one match site
(ECMAScript GetSubstitution): `$$` emits `$`; `$&` the matched text; `$`
followed by a backtick the part of the subject before the match; `$'` the
part after it; every other `$`-sequence is literal (the constructed
pattern has no capture groups, so `$1`…`$99` and `$<name>` stay
verbatim). -/
def expandDollar (mtc pre post : List Char) : List Char → List Char
  | [] => []
  | c :: rest =>
    if c = '$' then
      match rest with
      | [] => ['$']
      | c2 :: rest2 =>
        if c2 = '$' then '$' :: expandDollar mtc pre post rest2
        else if c2 = '&' then mtc ++ expandDollar mtc pre post rest2
        else if c2 = Char.ofNat 96 then pre ++ expandDollar mtc pre post rest2
        else if c2 = Char.ofNat 39 then post ++ expandDollar mtc pre post rest2
        else '$' :: c2 :: expandDollar mtc pre post rest2
    else c :: expandDollar mtc pre post rest

/-- Fuelled core of global replacement: scan left to right; at each
position, if the (nonempty) pattern matches, emit the `$`-expanded
replacement and resume after the matched text (the inserted text is not
rescanned), exactly as `String.prototype.replace` with a global regex and
a string replacement does.  `pre` accumulates the already-scanned part of
the subject in reverse (the before-match context of the expansion); the
fuel is an upper bound on the number of scan steps; `replaceAll` supplies
`s.length`, which always suffices. -/
def replAux : Nat → List Char → List Char → List Char → List Char → List Char
  | 0, _, _, _, s => s
  | _ + 1, _, _, _, [] => []
  | n + 1, pat, repl, pre, c :: cs =>
    if pat ≠ [] ∧ isPfx pat (c :: cs) then
      expandDollar pat pre.reverse (List.drop (pat.length - 1) cs) repl ++
        replAux n pat repl (pat.reverse ++ pre) (List.drop (pat.length - 1) cs)
    else
      c :: replAux n pat repl (c :: pre) cs

/-- The replacement core specialised to a `$`-free replacement: the
inserted text is the replacement verbatim and the scan context is
irrelevant.  The interpolation theorems reduce `replAux` to this normal
form. -/
def replAuxLit : Nat → List Char → List Char → List Char → List Char
  | 0, _, _, s => s
  | _ + 1, _, _, [] => []
  | n + 1, pat, repl, c :: cs =>
    if pat ≠ [] ∧ isPfx pat (c :: cs) then
      repl ++ replAuxLit n pat repl (List.drop (pat.length - 1) cs)
    else
      c :: replAuxLit n pat repl cs

/-- Global replacement on strings: models
`s.replace(new RegExp(pat, "g"), repl)` for a pattern that the regex
grammar reads as the literal character sequence `pat`. -/
def replaceAll (s pat repl : String) : String :=
  String.mk (replAux s.data.length pat.data repl.data [] s.data)

/-- `$`-free character data: the replacement regime in which `$`-pattern
expansion is the identity. -/
def dollarFree (s : String) : Bool :=
  s.data.all fun c => decide (c ≠ '$')

/-- Characters every ECMAScript regex grammar reads literally in any
position: ASCII letters, digits and underscore.  A placeholder name made
of these compiles — via `new RegExp("\x7b" + name + "\x7d", "g")` — to a
matcher for the literal token (the leading `\x7b` has no preceding atom,
so it cannot open a quantifier). -/
def literalNameChar (c : Char) : Bool :=
  c.isAlphanum || c = '_'

/-- Placeholder names inside the literal-regex regime. -/
def literalName (s : String) : Bool :=
  s.data.all literalNameChar

/-- The placeholder token `{name}` built by the source as a regex pattern:
`new RegExp("\x7b" + varName + "\x7d", "g")`. -/
def phToken (name : String) : String :=
  String.mk ('\x7b' :: (name.data ++ ['\x7d']))

/-- The placeholder loop of `Translator.get` (src/translator.js:56-60):
`for (const varName in vars) { text = text.replace(regex, vars[varName]); }`.
`vars` is the entry list of the vars object in iteration order; values are
taken in their string form. -/
def interpolate (s : String) (vars : List (String × String)) : String :=
  vars.foldl (fun acc p => replaceAll acc (phToken p.1) p.2) s

/-- Accumulator core of `key.split('.')`. -/
def splitDotAux : List Char → List Char → List String
  | [], acc => [String.mk acc.reverse]
  | c :: cs, acc =>
    if c = '.' then String.mk acc.reverse :: splitDotAux cs [] else splitDotAux cs (c :: acc)

/-- `key.split('.')` of JavaScript: `"" ↦ [""]`, `"a.b" ↦ ["a","b"]`,
`"a..b" ↦ ["a","","b"]`. -/
def jsSplitDot (s : String) : List String :=
  splitDotAux s.data []

/-- A JavaScript value stored in the translation table: a template string
or a plain object mapping segments to further values. -/
inductive LangTree where
  | leaf (s : String)
  | node (entries : List (String × LangTree))

/-- Own-property read `m[k]` on a plain object. -/
def getProp (m : List (String × LangTree)) (k : String) : Option LangTree :=
  match m with
  | [] => Option.none
  | (k', v) :: rest => if k' = k then Option.some v else getProp rest k

/-- JavaScript truthiness of a stored value: `""` is falsy; every other
string and every object (even `\x7b\x7d`) is truthy. -/
def LangTree.truthy : LangTree → Bool
  | .leaf s => decide (s ≠ "")
  | .node _ => true

/-- Value of a decimal digit list. -/
def digitsVal (l : List Char) : Nat :=
  l.foldl (fun n c => n * 10 + (c.toNat - 48)) 0

/-- `canonNat? l = some n` exactly when `l` is the canonical decimal
numeral of `n` (digits only, no leading zero except `"0"` itself) — the
strings that are array-index property names in JavaScript. -/
def canonNat? (l : List Char) : Option Nat :=
  if l.all Char.isDigit then
    match l with
    | [] => Option.none
    | ['0'] => Option.some 0
    | c :: _ => if c = '0' then Option.none else Option.some (digitsVal l)
  else Option.none

/-- Property read `s[i]` on a string primitive for its indexed properties:
defined exactly when `i` is the canonical decimal numeral of an index
`n < s.length`, yielding the one-character string `s[n]`. -/
def strIndex (s : String) (i : String) : Option LangTree :=
  match canonNat? i.data with
  | Option.none => Option.none
  | Option.some n => (s.data[n]?).map (fun c => LangTree.leaf (String.mk [c]))

/-- The own property names of `Object.prototype` (ECMAScript): reading
any of them on a plain object that lacks an own property of that name
yields the inherited member — a function, or `Object.prototype` itself
for `__proto__` — never `undefined`. -/
def objectProtoNames : List String :=
  ["constructor", "hasOwnProperty", "isPrototypeOf", "propertyIsEnumerable",
    "toLocaleString", "toString", "valueOf", "__proto__", "__defineGetter__",
    "__defineSetter__", "__lookupGetter__", "__lookupSetter__"]

/-- A JavaScript value the reducer of `get` can hold: a stored table
value, or a host value — an inherited `Object.prototype` member, named by
the property read that produced it.  Host values are truthy non-strings;
what a further property read on a host value yields is outside the model
(see `JsVal.index`), and the walk guard `plainStep` keeps such reads out
of every general theorem. -/
inductive JsVal where
  | tree (t : LangTree)
  | host (name : String)

/-- JavaScript truthiness of a reducer value: table values by their own
truthiness; every host value (a function, or the `Object.prototype`
object) is truthy. -/
def JsVal.truthy : JsVal → Bool
  | .tree t => t.truthy
  | .host _ => true

/-- Full property read `m[k]` on a plain object: the own property when
present, otherwise the inherited `Object.prototype` member when `k` names
one, otherwise `undefined`. -/
def readProp (m : List (String × LangTree)) (k : String) : Option JsVal :=
  match getProp m k with
  | Option.some t => Option.some (.tree t)
  | Option.none =>
    if k ∈ objectProtoNames then Option.some (.host k) else Option.none

/-- Property read `v[i]` on a reducer value.  On a stored object the full
prototype-aware read; on a string leaf the indexed properties (a
non-index string property read — `length`, a method name — is outside the
model and excluded by the walk guard); on a host value the model answers
`undefined`, which is exact for names that are not function properties,
while reads of actual function properties (`call`, `name`, `length`, …)
are likewise outside the model and excluded by the walk guard. -/
def JsVal.index : JsVal → String → Option JsVal
  | .tree (.node m), i => readProp m i
  | .tree (.leaf s), i => (strIndex s i).map JsVal.tree
  | .host _, _ => Option.none

/-- One step of the reducer in `Translator.get` (src/translator.js:48):
`(obj, i) => (obj ? obj[i] : null)`. -/
def resolveStep (obj : Option JsVal) (i : String) : Option JsVal :=
  match obj with
  | Option.none => Option.none
  | Option.some v => if v.truthy then v.index i else Option.none

/-- `key.split('.').reduce((obj, i) => (obj ? obj[i] : null), langTranslations)`
with the segment list already split. -/
def resolveSegs (v : JsVal) (segs : List String) : Option JsVal :=
  segs.foldl resolveStep (Option.some v)

/-- One reducer step stays inside the modelled fragment: any read on a
stored object (the prototype-aware `readProp` is exact for every name),
only canonical-index reads on a string leaf, no read on a host value —
and anything once the accumulator is falsy, since the code then yields
`null` regardless of the segment. -/
def plainStep (obj : Option JsVal) (i : String) : Bool :=
  match obj with
  | Option.none => true
  | Option.some v =>
    if v.truthy then
      match v with
      | .tree (.node _) => true
      | .tree (.leaf _) => (canonNat? i.data).isSome
      | .host _ => false
    else true

/-- The whole reduce stays inside the modelled fragment (decidable per
key and tree). -/
def walkPlain : Option JsVal → List String → Bool
  | _, [] => true
  | obj, seg :: rest => plainStep obj seg && walkPlain (resolveStep obj seg) rest

/-- Console events emitted by the source (`console.log/warn/error`). -/
inductive LogEvent where
  | warnMissingKey (key : String) (lang : String)
  | errorUnknownLanguage (lang : String)
  | infoLanguageChanged (lang : String)
  | errorMalformedVars (key : String)
deriving DecidableEq

/-- Outcome of `Translator.get`: a returned string, a returned non-string
value (the source can return the nested object itself, or an inherited
host value), or an escaping `TypeError` (reached when the source calls
`.replace` on a non-string). -/
inductive GetResult where
  | ok (s : String)
  | objVal (v : JsVal)
  | typeError

/-- The state of the `Translator` class (src/translator.js:8-11). -/
structure Translator where
  currentLang : String
  translations : List (String × LangTree)

/-- `constructor(initialLang = 'en')`: sets the language without
validation; the table starts empty. -/
def Translator.construct (initialLang : String) : Translator :=
  ⟨initialLang, []⟩

/-- `load(translationsData)`: replaces the table wholesale. -/
def Translator.load (tr : Translator) (data : List (String × LangTree)) : Translator :=
  { tr with translations := data }

/-- `get(key, vars = \x7b\x7d)` (src/translator.js:43-62), step for step:
read `translations[currentLang]` (prototype-aware: an inherited member is
truthy); if falsy return the key (no log); reduce over the dotted
segments; if the result is falsy, warn and return the key; otherwise run
the placeholder loop — which, when the resolved value is a non-string
(a stored object or a host value) and `vars` is nonempty, throws a
`TypeError` at `text.replace`, and when `vars` is empty returns that
value itself. -/
def Translator.get (tr : Translator) (key : String) (vars : List (String × String)) :
    GetResult × List LogEvent :=
  match readProp tr.translations tr.currentLang with
  | Option.none => (.ok key, [])
  | Option.some lt =>
    if lt.truthy then
      match resolveSegs lt (jsSplitDot key) with
      | Option.none => (.ok key, [.warnMissingKey key tr.currentLang])
      | Option.some t =>
        if t.truthy then
          match t with
          | .tree (.leaf s) => (.ok (interpolate s vars), [])
          | v => if vars.isEmpty then (.objVal v, []) else (.typeError, [])
        else (.ok key, [.warnMissingKey key tr.currentLang])
    else (.ok key, [])

/-- The `data-translate-vars` attribute of a node, modelled by the outcome
of the platform facilities `getAttribute` and `JSON.parse`: `absent` is a
missing attribute (`getAttribute` returns null); `emptyStr` is the present
but empty attribute `""` (falsy, so the source skips the parse); `broken`
is a nonempty value on which `JSON.parse` throws; `okJson vars` is a
nonempty value parsing to an object with the given entries (values in
string form). -/
inductive VarsAttr where
  | absent
  | emptyStr
  | broken
  | okJson (vars : List (String × String))
deriving DecidableEq

/-- A document forest in first-child / next-sibling form.  `elem` carries
the node's identity, its `data-translate` attribute (`none` when absent),
its `data-translate-vars` attribute, its current text content, its shadow
root contents (`nil` when it hosts no shadow root), its child elements and
its following siblings.  A `Dom` value therefore stands for a sequence of
sibling elements; `document.body`'s subtree is such a forest. -/
inductive Dom where
  | nil
  | elem (id : Nat) (key : Option String) (va : VarsAttr) (content : String)
      (shadow : Dom) (children : Dom) (sib : Dom)
deriving DecidableEq

/-- `vars = {}` then the guarded `JSON.parse(varsAttr)` of
src/translator.js:84-92: an absent or empty attribute is falsy and skips
the parse; a parse failure logs a malformed-vars error (scoped with the
node's key) and leaves `vars` empty. -/
def decodeVars (key : String) (va : VarsAttr) : List (String × String) × List LogEvent :=
  match va with
  | .absent => ([], [])
  | .emptyStr => ([], [])
  | .broken => ([], [.errorMalformedVars key])
  | .okJson vars => (vars, [])

/-- The string assigned by `el.innerHTML = this.get(key, vars)`: a string
result verbatim; a returned stored object coerced (`"[object Object]"`);
a returned inherited member coerced to an engine-defined string, stood in
for by a placeholder (no settled claim depends on it); no assignment at
all when `get` throws. -/
def written : GetResult → Option String
  | .ok s => Option.some s
  | .objVal (.tree _) => Option.some "[object Object]"
  | .objVal (.host f) => Option.some (String.mk (("[inherited ".data ++ f.data) ++ "]".data))
  | .typeError => Option.none

/-- The content that a render of an annotated node with key `k` and vars
attribute `va` writes (`none` when the render throws). -/
def renderOf (tr : Translator) (k : String) (va : VarsAttr) : Option String :=
  written (tr.get k (decodeVars k va).1).1

/-- Result of a render pass: the thrown-fault flag, the resulting
document forest, the console events, and the trace of
`el.innerHTML = ...` assignments as (node id, string written). -/
structure RenderOut where
  err : Bool
  doc : Dom
  logs : List LogEvent
  trace : List (Nat × String)
deriving DecidableEq

/-- Step 1 of `translateNode` (src/translator.js:80-93): the static
`querySelectorAll('[data-translate]')` snapshot of the forest in document
order, each element decoded, resolved and written via
`el.innerHTML = this.get(key, vars)`.  Writing replaces the element's
children (the resolved text is written as text; shadow roots survive), so
the recursion continues through the original children even when they have
just been detached — their writes still execute, are recorded in the
trace, but no longer affect the document.  A thrown `TypeError` in `get`
aborts the remaining snapshot: the error flag is set and later elements
are left untouched. -/
def translatePass (tr : Translator) : Dom → RenderOut
  | .nil => ⟨false, .nil, [], []⟩
  | .elem i k va c sh ch sib =>
    match k with
    | Option.some key =>
      let dv := decodeVars key va
      let g := tr.get key dv.1
      match written g.1 with
      | Option.none => ⟨true, .elem i k va c sh ch sib, dv.2 ++ g.2, []⟩
      | Option.some w =>
        let rc := translatePass tr ch
        if rc.err then
          ⟨true, .elem i k va w sh .nil sib, dv.2 ++ g.2 ++ rc.logs, (i, w) :: rc.trace⟩
        else
          let rs := translatePass tr sib
          ⟨rs.err, .elem i k va w sh .nil rs.doc,
            dv.2 ++ g.2 ++ rc.logs ++ rs.logs, (i, w) :: (rc.trace ++ rs.trace)⟩
    | Option.none =>
      let rc := translatePass tr ch
      if rc.err then ⟨true, .elem i k va c sh rc.doc sib, rc.logs, rc.trace⟩
      else
        let rs := translatePass tr sib
        ⟨rs.err, .elem i k va c sh rc.doc rs.doc, rc.logs ++ rs.logs, rc.trace ++ rs.trace⟩

/-- Step 2 of `translateNode` (src/translator.js:96-102): walk the
`querySelectorAll('*')` snapshot of the (already step-1-rewritten) forest
in document order and, for every element hosting a shadow root, run the
full `translateNode` — passed here as `rec` — on that shadow root's
contents.  Shadow recursion mutates only the shadow tree; an error thrown
inside it aborts the remaining walk. -/
def shadowPass (rec : Dom → RenderOut) : Dom → RenderOut
  | .nil => ⟨false, .nil, [], []⟩
  | .elem i k va c sh ch sib =>
    match sh with
    | .nil =>
      let rc := shadowPass rec ch
      if rc.err then ⟨true, .elem i k va c .nil rc.doc sib, rc.logs, rc.trace⟩
      else
        let rs := shadowPass rec sib
        ⟨rs.err, .elem i k va c .nil rc.doc rs.doc, rc.logs ++ rs.logs, rc.trace ++ rs.trace⟩
    | shadow =>
      let rh := rec shadow
      if rh.err then ⟨true, .elem i k va c rh.doc ch sib, rh.logs, rh.trace⟩
      else
        let rc := shadowPass rec ch
        if rc.err then
          ⟨true, .elem i k va c rh.doc rc.doc sib, rh.logs ++ rc.logs, rh.trace ++ rc.trace⟩
        else
          let rs := shadowPass rec sib
          ⟨rs.err, .elem i k va c rh.doc rc.doc rs.doc,
            rh.logs ++ rc.logs ++ rs.logs, rh.trace ++ rc.trace ++ rs.trace⟩

/-- Shadow-nesting depth of a forest: how many shadow boundaries the
deepest element sits behind. -/
def sdepth : Dom → Nat
  | .nil => 0
  | .elem _ _ _ _ sh ch sib =>
    max (match sh with | .nil => 0 | shadow => sdepth shadow + 1) (max (sdepth ch) (sdepth sib))

/-- `translateNode`, fuelled by shadow-nesting depth: fuel is consumed
exactly when recursing through a shadow boundary, so any fuel exceeding
`sdepth` makes `translateF` agree with the source's unbounded recursion.
With fuel `0` the pass reports an error and does nothing (never reached
from `Translator.translateNode`). -/
def translateF : Nat → Translator → Dom → RenderOut
  | 0, _, d => ⟨true, d, [], []⟩
  | Nat.succ n, tr, d =>
    let r1 := translatePass tr d
    if r1.err then r1
    else
      let r2 := shadowPass (translateF n tr) r1.doc
      ⟨r2.err, r2.doc, r1.logs ++ r2.logs, r1.trace ++ r2.trace⟩

/-- `translateNode(rootNode)` on a forest (the descendants of the root
passed to it). -/
def Translator.translateNode (tr : Translator) (d : Dom) : RenderOut :=
  translateF (sdepth d + 1) tr d

/-- `apply()` (src/translator.js:68-71): run `translateNode` from
`document.body`, here represented by its element forest. -/
def Translator.apply (tr : Translator) (d : Dom) : RenderOut :=
  tr.translateNode d

/-- `setLanguage(lang)` (src/translator.js:26-34): if `translations[lang]`
is falsy, log an error naming `lang` and return — no state change, no
render; otherwise (also when the prototype-aware read yields a truthy
inherited member for a `lang` that is no key at all) set `currentLang`,
log the change, and run `apply()`.  Result: (new state, new document,
console log, render-pass error flag). -/
def Translator.setLanguage (tr : Translator) (lang : String) (d : Dom) :
    Translator × Dom × List LogEvent × Bool :=
  match readProp tr.translations lang with
  | Option.none => (tr, d, [.errorUnknownLanguage lang], false)
  | Option.some t =>
    if t.truthy then
      let tr' := { tr with currentLang := lang }
      let r := tr'.apply d
      (tr', r.doc, .infoLanguageChanged lang :: r.logs, r.err)
    else (tr, d, [.errorUnknownLanguage lang], false)

/-- Annotated elements of a forest reachable without crossing a shadow
boundary, in document order: what `querySelectorAll('[data-translate]')`
returns, as (id, key, vars attribute). -/
def lightAnn : Dom → List (Nat × String × VarsAttr)
  | .nil => []
  | .elem i k va _ _ ch sib =>
    (match k with | Option.some key => [(i, key, va)] | Option.none => []) ++
      (lightAnn ch ++ lightAnn sib)

/-- The shadow forests hosted by elements of a forest (not crossing into
shadows), in document order: the sub-trees step 2 recurses into. -/
def hosts : Dom → List Dom
  | .nil => []
  | .elem _ _ _ _ sh ch sib =>
    (match sh with | .nil => [] | shadow => [shadow]) ++ (hosts ch ++ hosts sib)

/-- Every annotated element reachable through any depth of nested shadow
sub-trees, as (id, key, vars attribute). -/
def reachAnn : Dom → List (Nat × String × VarsAttr)
  | .nil => []
  | .elem i k va _ sh ch sib =>
    (match k with | Option.some key => [(i, key, va)] | Option.none => []) ++
      (reachAnn sh ++ (reachAnn ch ++ reachAnn sib))

/-- No element of the forest (shadow boundaries not crossed) hosts a
shadow root. -/
def shadowFree : Dom → Bool
  | .nil => true
  | .elem _ _ _ _ sh ch sib =>
    (match sh with | .nil => true | _ => false) && (shadowFree ch && shadowFree sib)

/-- Rendering an annotated element replaces its children, so a shadow
host sitting below an annotated element is destroyed before step 2 can
reach it.  `safe` rules exactly that layout out, at every shadow depth:
no annotated element's (light) descendants host a shadow root. -/
def safe : Dom → Bool
  | .nil => true
  | .elem _ k _ _ sh ch sib =>
    (match k with | Option.some _ => shadowFree ch | Option.none => safe ch) &&
      (safe sh && safe sib)

/-- The identities of all reachable elements (annotated or not), used to
state that distinct document nodes are distinct. -/
def domIds : Dom → List Nat
  | .nil => []
  | .elem i _ _ _ sh ch sib => i :: (domIds sh ++ (domIds ch ++ domIds sib))

/-- A forest is render-fixed when every annotated element (at any shadow
depth) already carries the content its render writes and has no children,
and no render throws: the shape `translateNode` leaves behind on success. -/
def renderFixed (tr : Translator) : Dom → Prop
  | .nil => True
  | .elem _ k va c sh ch sib =>
    (match k with
     | Option.some key => renderOf tr key va = Option.some c ∧ ch = Dom.nil
     | Option.none => renderFixed tr ch) ∧
      (renderFixed tr sh ∧ renderFixed tr sib)

/-- Resolution of a dotted path through a language tree as the spec's
data model prescribes it: walk sub-tree by sub-tree along the segments
and return the template string stored at the end, if the walk stays in
tree nodes and ends at a leaf. -/
def storedAt : LangTree → List String → Option String
  | .leaf s, [] => Option.some s
  | .leaf _, _ :: _ => Option.none
  | .node _, [] => Option.none
  | .node m, seg :: rest =>
    match getProp m seg with
    | Option.none => Option.none
    | Option.some t => storedAt t rest

/-- JavaScript falsiness of the reducer result checked by
`if (!langTranslations)` and `if (!text)`: absent, or present but falsy. -/
def falsyRes : Option JsVal → Bool
  | Option.none => true
  | Option.some v => !v.truthy

/-- Brace-free character data: no `\x7b` and no `\x7d`, so it can neither
open nor close a placeholder token. -/
def braceFree (l : List Char) : Bool :=
  l.all fun c => decide (c ≠ '\x7b') && decide (c ≠ '\x7d')

/-- The placeholder token `\x7bname\x7d` as character data, in cons-headed
form. -/
def tokenL (name : String) : List Char :=
  '\x7b' :: (name.data ++ ['\x7d'])

/-- The shape of a template string: literal text alternating with
placeholder tokens. -/
inductive TplPart where
  | txt (s : String)
  | ph (name : String)

/-- The template string a shape denotes, as character data: a placeholder
part becomes the token `\x7bname\x7d`. -/
def TplPart.render : TplPart → List Char
  | .txt s => s.data
  | .ph n => tokenL n

/-- Render a whole template shape. -/
def renderT (ps : List TplPart) : List Char :=
  (ps.map TplPart.render).flatten

/-- Well-formed template part: its literal text or placeholder name is
brace-free. -/
def wfPart : TplPart → Bool
  | .txt s => braceFree s.data
  | .ph n => braceFree n.data

/-- Well-formed template shape: every part is. -/
def wfParts (ps : List TplPart) : Bool :=
  ps.all wfPart

/-- First-match lookup of a name in a vars entry list. -/
def varLookup (vars : List (String × String)) (n : String) : Option String :=
  match vars with
  | [] => Option.none
  | (m, v) :: rest => if m = n then Option.some v else varLookup rest n

/-- Well-formed vars map for the literal-substitution theorem: names
inside the literal-regex regime, values brace-free (they can neither open
nor close a token) and `$`-free (their insertion is verbatim). -/
def varsWF (vars : List (String × String)) : Bool :=
  vars.all fun p => literalName p.1 && (braceFree p.2.data && dollarFree p.2)

/-- Substitution of one vars entry into a template shape: the placeholders
carrying exactly that name become their value, everything else stays. -/
def substOne (nm v : String) : TplPart → TplPart
  | .ph m => if m = nm then .txt v else .ph m
  | .txt s => .txt s

/-- Simultaneous substitution of a whole vars map into a template shape:
a placeholder whose name has an entry becomes the (first) value bound to
it; a placeholder with no entry stays verbatim. -/
def substVars (vars : List (String × String)) : TplPart → TplPart
  | .ph m =>
    (match varLookup vars m with
     | Option.some v => .txt v
     | Option.none => .ph m)
  | .txt s => .txt s

/-- Exact-fuel literal replacement core: `replaceAll` on character data,
for the `$`-free replacement regime. -/
def replL (pat repl s : List Char) : List Char :=
  replAuxLit s.length pat repl s

/-- The trace entry a successful render of an annotated element leaves:
its id together with the string its render writes. -/
def expEntry (tr : Translator) (it : Nat × String × VarsAttr) : Nat × String :=
  (it.1, (renderOf tr it.2.1 it.2.2).getD "")

/-- The console events processing one annotated element emits: the
malformed-vars error of its decode (if any), then the events of its
`get`. -/
def nodeLogs (tr : Translator) (it : Nat × String × VarsAttr) : List LogEvent :=
  (decodeVars it.2.1 it.2.2).2 ++ (tr.get it.2.1 (decodeVars it.2.1 it.2.2).1).2

/-- Step 1 leaves the light part of a forest in this shape: every
annotated element (shadow boundaries not crossed) carries exactly the
content its render writes, has no children, and its render does not
throw. -/
def lightFixed (tr : Translator) : Dom → Prop
  | .nil => True
  | .elem _ k va c _ ch sib =>
    (match k with
     | Option.some key => renderOf tr key va = Option.some c ∧ ch = Dom.nil
     | Option.none => lightFixed tr ch) ∧ lightFixed tr sib

theorem interpolate_nil (s : String) : interpolate s [] = s := rfl

theorem splitDotAux_ne_nil (l acc : List Char) : splitDotAux l acc ≠ [] := by
  induction l generalizing acc with
  | nil => simp [splitDotAux]
  | cons c cs ih =>
    simp only [splitDotAux]
    split <;> simp [ih]

theorem jsSplitDot_ne_nil (s : String) : jsSplitDot s ≠ [] :=
  splitDotAux_ne_nil s.data []

theorem readProp_own {m : List (String × LangTree)} {k : String} {t : LangTree}
    (h : getProp m k = Option.some t) : readProp m k = Option.some (JsVal.tree t) := by
  simp [readProp, h]

theorem storedAt_node {lt : LangTree} {seg : String} {rest : List String} {s : String}
    (h : storedAt lt (seg :: rest) = Option.some s) : ∃ m, lt = LangTree.node m := by
  cases lt with
  | leaf t => simp [storedAt] at h
  | node m => exact ⟨m, rfl⟩

theorem storedAt_resolve (segs : List String) : ∀ (lt : LangTree) (s : String),
    storedAt lt segs = Option.some s →
    resolveSegs (JsVal.tree lt) segs = Option.some (.tree (.leaf s)) := by
  induction segs with
  | nil =>
    intro lt s h
    cases lt with
    | leaf t => simp [storedAt] at h; simp [resolveSegs, h]
    | node m => simp [storedAt] at h
  | cons seg rest ih =>
    intro lt s h
    cases lt with
    | leaf t => simp [storedAt] at h
    | node m =>
      simp only [storedAt] at h
      cases hg : getProp m seg with
      | none => rw [hg] at h; simp at h
      | some t =>
        rw [hg] at h
        simp only [resolveSegs, List.foldl_cons]
        have hstep : resolveStep (Option.some (JsVal.tree (LangTree.node m))) seg =
            Option.some (JsVal.tree t) := by
          simp [resolveStep, JsVal.truthy, LangTree.truthy, JsVal.index, readProp_own hg]
        rw [hstep]
        exact ih t s h

/-- C10 counterexample: constructed with initial language `"toString"`
(no `load` yet), the read `translations["toString"]` on the empty table
yields the inherited truthy `Object.prototype.toString`, so `get("x")`
does not take the silent no-table branch: it walks the inherited member,
comes out falsy and emits a missing-key warning — against the claim that
between construction and the first load every `get` returns the key with
no notification. -/
theorem C10_counterexample :
    (Translator.construct "toString").get "x" [] =
      (.ok "x", [.warnMissingKey "x" "toString"]) := rfl

/-- C10 amended: between construction and the first `load` the table is
empty, so for every initial language that is not an `Object.prototype`
member name, `get(key, vars)` returns the key verbatim for every key and
every vars map, emitting no notification and throwing nothing; an
inherited member name as initial language instead makes the empty table's
read truthy, and `get` walks the host value (warning for plain keys, as
the counterexample shows). -/
theorem C10_amended (initialLang key : String) (vars : List (String × String))
    (h : initialLang ∉ objectProtoNames) :
    (Translator.construct initialLang).get key vars = (.ok key, []) := by
  unfold Translator.get
  have hr : readProp (Translator.construct initialLang).translations
      (Translator.construct initialLang).currentLang = Option.none := by
    simp [Translator.construct, readProp, getProp, h]
  rw [hr]

theorem C10_amended_witness :
    ("en" : String) ∉ objectProtoNames ∧
      (Translator.construct "en").get "greeting.hello" [("n", "x")] =
        (.ok "greeting.hello", []) :=
  ⟨by decide, C10_amended "en" "greeting.hello" [("n", "x")] (by decide)⟩

/-- C5: the code, not the claim, is wrong here: with the loaded table
`\x7ben: \x7ba: \x7bb: "x"\x7d\x7d\x7d`, `get("a", \x7bn: "y"\x7d)`
resolves `text` to the nested object, and the placeholder loop calls
`text.replace`, which throws a `TypeError`; inside `apply()` the same
input aborts the whole render pass — contradicting the claim (and the
source's own `@returns \x7bstring\x7d` contract) that failures degrade
without a thrown fault. -/
theorem C5_typeError_escapes :
    (Translator.mk "en" [("en", .node [("a", .node [("b", .leaf "x")])])]).get "a"
        [("n", "y")] = (.typeError, []) ∧
      ((Translator.mk "en" [("en", .node [("a", .node [("b", .leaf "x")])])]).apply
          (.elem 1 (Option.some "a") (.okJson [("n", "y")]) "" .nil .nil .nil)).err = true :=
  ⟨rfl, rfl⟩

/-- C6 counterexample: with table `\x7ben: \x7ba: \x7bb: "x"\x7d\x7d\x7d`,
`get("a")` returns the nested object itself (no fallback, no warning), and
with table `\x7ben: \x7ba: "hi"\x7d\x7d`, `get("a.0")` keeps walking
through the string `"hi"` by character indexing and returns `"h"` — so
resolution does return non-LeafString values and does continue through
non-tree values. -/
theorem C6_counterexample :
    (Translator.mk "en" [("en", .node [("a", .node [("b", .leaf "x")])])]).get "a" [] =
        (.objVal (.tree (.node [("b", .leaf "x")])), []) ∧
      (Translator.mk "en" [("en", .node [("a", .leaf "hi")])]).get "a.0" [] =
        (.ok "h", []) :=
  ⟨rfl, rfl⟩

theorem get_missing_warn (tr : Translator) (key : String) (vars : List (String × String))
    (lt : LangTree) (h1 : getProp tr.translations tr.currentLang = Option.some lt)
    (h2 : lt.truthy = true)
    (hf : falsyRes (resolveSegs (JsVal.tree lt) (jsSplitDot key)) = true) :
    tr.get key vars = (.ok key, [.warnMissingKey key tr.currentLang]) := by
  unfold Translator.get
  rw [readProp_own h1]
  have h2' : (JsVal.tree lt).truthy = true := h2
  simp only [h2', if_true]
  cases hres : resolveSegs (JsVal.tree lt) (jsSplitDot key) with
  | none => simp
  | some v =>
    rw [hres] at hf
    simp only [falsyRes, Bool.not_eq_true'] at hf
    simp [hf]

/-- C6 amended: what resolution actually does, on keys whose walk stays
inside plain table data (the guard `walkPlain`: reads on stored objects —
which the prototype-aware model covers for every name — plus only
canonical-index reads on string leaves, and no property read on an
inherited host value): when the active language has a truthy tree, `get`
falls back to the key (with the missing-key warning) exactly when the
reduce over the path yields a falsy value — a segment absent both as an
own property and along the prototype chain, or an empty-string leaf.  A
truthy non-string terminal (a stored object, or an inherited member such
as the one reached by `"a.toString"`) is not a failure: it is returned as
a value (or throws, once the placeholder loop touches it), and a string
leaf met mid-path is walked into by character indexing. -/
theorem C6_amended (tr : Translator) (key : String) (vars : List (String × String))
    (lt : LangTree) (h1 : getProp tr.translations tr.currentLang = Option.some lt)
    (h2 : lt.truthy = true)
    (hw : walkPlain (Option.some (JsVal.tree lt)) (jsSplitDot key) = true) :
    falsyRes (resolveSegs (JsVal.tree lt) (jsSplitDot key)) = true ↔
      tr.get key vars = (.ok key, [.warnMissingKey key tr.currentLang]) := by
  unfold Translator.get
  rw [readProp_own h1]
  have h2' : (JsVal.tree lt).truthy = true := h2
  simp only [h2', if_true]
  constructor
  · intro hf
    have h := get_missing_warn tr key vars lt h1 h2 hf
    unfold Translator.get at h
    rw [readProp_own h1] at h
    simpa [h2'] using h
  · intro hret
    split at hret
    next hres => simp [falsyRes, hres]
    next t hres =>
      rw [hres]
      by_cases ht : t.truthy = true
      · exfalso
        rw [if_pos ht] at hret
        cases t with
        | tree t' =>
          cases t' with
          | leaf s => simp at hret
          | node m =>
            by_cases hv : vars.isEmpty <;> simp [hv] at hret
        | host f =>
          by_cases hv : vars.isEmpty <;> simp [hv] at hret
      · cases htb : t.truthy with
        | true => exact absurd htb ht
        | false => simp [falsyRes, htb]

theorem C6_amended_witness :
    falsyRes (resolveSegs (JsVal.tree (LangTree.node [("a", LangTree.leaf "x")]))
        (jsSplitDot "b")) = true ∧
      (Translator.mk "en" [("en", LangTree.node [("a", LangTree.leaf "x")])]).get "b" [] =
        (.ok "b", [.warnMissingKey "b" "en"]) :=
  ⟨rfl, (C6_amended (Translator.mk "en" [("en", LangTree.node [("a", LangTree.leaf "x")])])
    "b" [] (LangTree.node [("a", LangTree.leaf "x")]) rfl rfl rfl).mp rfl⟩

/-- C2 counterexample: resolution can also fail because there is no tree
for the active language — here the table holds only `"es"` while the
active language is `"en"` — and in that branch (src/translator.js:45-46)
the key is returned with no notification at all, against the claim that
every resolution failure emits a missing-key notification. -/
theorem C2_counterexample :
    (Translator.mk "en" [("es", LangTree.node [("a", LangTree.leaf "Hola")])]).get "a" [] =
      (.ok "a", []) := rfl

/-- C2 amended: when the active language does have a truthy tree and the
walk over the dotted path — confined by `walkPlain` to plain table data —
comes out falsy (a segment absent even along the prototype chain, or an
empty-string leaf), `get` returns the key unchanged and warns, naming
both the key and the active language; but when the prototype-aware read
`translations[currentLang]` is falsy — the active language is neither an
own key of the table nor an `Object.prototype` member name — `get`
returns the key unchanged silently, with no notification. -/
theorem C2_amended (tr : Translator) (key : String) (vars : List (String × String)) :
    (∀ lt, getProp tr.translations tr.currentLang = Option.some lt → lt.truthy = true →
        walkPlain (Option.some (JsVal.tree lt)) (jsSplitDot key) = true →
        falsyRes (resolveSegs (JsVal.tree lt) (jsSplitDot key)) = true →
        tr.get key vars = (.ok key, [.warnMissingKey key tr.currentLang])) ∧
      (falsyRes (readProp tr.translations tr.currentLang) = true →
        tr.get key vars = (.ok key, [])) := by
  constructor
  · intro lt h1 h2 _ hf
    exact get_missing_warn tr key vars lt h1 h2 hf
  · intro hf
    unfold Translator.get
    cases hl : readProp tr.translations tr.currentLang with
    | none => rfl
    | some v =>
      rw [hl] at hf
      simp only [falsyRes, Bool.not_eq_true'] at hf
      simp [hf]

theorem C2_amended_witness :
    (Translator.mk "en" [("en", LangTree.node [("a", LangTree.leaf "x")])]).get "b.c" [] =
        (.ok "b.c", [.warnMissingKey "b.c" "en"]) ∧
      (Translator.mk "de" [("en", LangTree.node [("a", LangTree.leaf "x")])]).get "a" [] =
        (.ok "a", []) :=
  ⟨(C2_amended (Translator.mk "en" [("en", LangTree.node [("a", LangTree.leaf "x")])])
      "b.c" []).1 (LangTree.node [("a", LangTree.leaf "x")]) rfl rfl rfl rfl,
    (C2_amended (Translator.mk "de" [("en", LangTree.node [("a", LangTree.leaf "x")])])
      "a" []).2 rfl⟩

/-- C1 counterexample: the table `\x7ben: \x7ba: ""\x7d\x7d` stores the
LeafString `""` at the path `a`, but `get("a")` with empty vars returns
the key `"a"` (with a spurious missing-key warning) instead of the stored
leaf: `if (!text)` treats the falsy empty template as "not found". -/
theorem C1_counterexample :
    storedAt (LangTree.node [("a", LangTree.leaf "")]) (jsSplitDot "a") = Option.some "" ∧
      (Translator.mk "en" [("en", LangTree.node [("a", LangTree.leaf "")])]).get "a" [] =
        (.ok "a", [.warnMissingKey "a" "en"]) ∧
      ("a" : String) ≠ "" :=
  ⟨rfl, rfl, by decide⟩

theorem get_stored (tr : Translator) (key : String) (vars : List (String × String))
    (lt : LangTree) (s : String)
    (h1 : getProp tr.translations tr.currentLang = Option.some lt)
    (h2 : storedAt lt (jsSplitDot key) = Option.some s) (h3 : s ≠ "") :
    tr.get key vars = (.ok (interpolate s vars), []) := by
  have hsegs : ∃ seg rest, jsSplitDot key = seg :: rest := by
    cases hs : jsSplitDot key with
    | nil => exact absurd hs (jsSplitDot_ne_nil key)
    | cons seg rest => exact ⟨seg, rest, rfl⟩
  obtain ⟨seg, rest, hsegs⟩ := hsegs
  have hnode : ∃ m, lt = LangTree.node m := storedAt_node (hsegs ▸ h2)
  obtain ⟨m, hm⟩ := hnode
  have htruthy : (JsVal.tree lt).truthy = true := by rw [hm]; rfl
  have hres : resolveSegs (JsVal.tree lt) (jsSplitDot key) =
      Option.some (.tree (.leaf s)) :=
    storedAt_resolve (jsSplitDot key) lt s h2
  have hleaf : (JsVal.tree (LangTree.leaf s)).truthy = true := by
    simp [JsVal.truthy, LangTree.truthy, h3]
  unfold Translator.get
  rw [readProp_own h1]
  simp [htruthy, hres, hleaf]

/-- C1 amended: for every loaded table, language tree and dotted key whose
path through that tree reaches a stored nonempty LeafString, `get` under
that language returns exactly the stored leaf after interpolation — at any
depth — and with an empty vars map returns the stored leaf unchanged.
The vars map's placeholder names are confined to the literal-regex regime
(`literalName`), the fragment where the model's `interpolate` — including
its `$`-pattern expansion of the values — is what the source's
regex-based replacement computes. -/
theorem C1_amended (tr : Translator) (key : String) (vars : List (String × String))
    (lt : LangTree) (s : String)
    (h1 : getProp tr.translations tr.currentLang = Option.some lt)
    (h2 : storedAt lt (jsSplitDot key) = Option.some s) (h3 : s ≠ "")
    (hv : (vars.all fun p => literalName p.1) = true) :
    tr.get key vars = (.ok (interpolate s vars), []) ∧ tr.get key [] = (.ok s, []) := by
  refine ⟨get_stored tr key vars lt s h1 h2 h3, ?_⟩
  rw [get_stored tr key [] lt s h1 h2 h3]
  rfl

theorem C1_amended_witness :
    (Translator.mk "en"
          [("en", LangTree.node [("t", LangTree.leaf "Top"),
            ("a", LangTree.node [("b", LangTree.node [("c", LangTree.node
              [("d", LangTree.leaf "Deep \x7bn\x7d")])])])])]).get "a.b.c.d" [("n", "x")] =
        (.ok "Deep x", []) ∧
      (Translator.mk "en"
          [("en", LangTree.node [("t", LangTree.leaf "Top"),
            ("a", LangTree.node [("b", LangTree.node [("c", LangTree.node
              [("d", LangTree.leaf "Deep \x7bn\x7d")])])])])]).get "t" [] =
        (.ok "Top", []) := by
  constructor
  · have h := (C1_amended (Translator.mk "en"
        [("en", LangTree.node [("t", LangTree.leaf "Top"),
          ("a", LangTree.node [("b", LangTree.node [("c", LangTree.node
            [("d", LangTree.leaf "Deep \x7bn\x7d")])])])])]) "a.b.c.d" [("n", "x")]
        (LangTree.node [("t", LangTree.leaf "Top"),
          ("a", LangTree.node [("b", LangTree.node [("c", LangTree.node
            [("d", LangTree.leaf "Deep \x7bn\x7d")])])])]) "Deep \x7bn\x7d"
        rfl rfl (by decide) (by decide)).1
    rw [h]
    rfl
  · exact (C1_amended (Translator.mk "en"
        [("en", LangTree.node [("t", LangTree.leaf "Top"),
          ("a", LangTree.node [("b", LangTree.node [("c", LangTree.node
            [("d", LangTree.leaf "Deep \x7bn\x7d")])])])])]) "t" []
        (LangTree.node [("t", LangTree.leaf "Top"),
          ("a", LangTree.node [("b", LangTree.node [("c", LangTree.node
            [("d", LangTree.leaf "Deep \x7bn\x7d")])])])]) "Top"
        rfl rfl (by decide) (by decide)).2

/-- C3 counterexample: `setLanguage("toString")` on a loaded table that
has no key `"toString"` nevertheless succeeds: the guard reads the
inherited truthy `Object.prototype.toString`, so the code sets
`currentLang := "toString"`, logs the language change and re-renders —
against the claim that every code absent from the table fails with an
error, unchanged state and no render. -/
theorem C3_counterexample :
    getProp [("en", LangTree.node [("a", LangTree.leaf "x")])] "toString" = Option.none ∧
      (Translator.mk "en" [("en", LangTree.node [("a", LangTree.leaf "x")])]).setLanguage
          "toString" Dom.nil =
        (Translator.mk "toString" [("en", LangTree.node [("a", LangTree.leaf "x")])],
          Dom.nil, [.infoLanguageChanged "toString"], false) :=
  ⟨rfl, rfl⟩

/-- C3 amended: `setLanguage(lang)` fails — unknown-language error naming
`lang`, state and document untouched, no render — exactly when the
prototype-aware read `translations[lang]` is falsy, i.e. when `lang` is
neither an own key of the table nor an `Object.prototype` member name;
with `lang` bound in the table to a language tree (an object, hence
truthy) it sets `currentLang := lang` and re-renders the document through
`apply()`; and with `lang` an inherited member name that is no key at all
the truthy guard also passes: `currentLang` is set to `lang` and a render
is triggered. -/
theorem C3_setLanguage (tr : Translator) (lang : String) (d : Dom) :
    (readProp tr.translations lang = Option.none →
        tr.setLanguage lang d = (tr, d, [.errorUnknownLanguage lang], false)) ∧
      (∀ m, getProp tr.translations lang = Option.some (LangTree.node m) →
        (tr.setLanguage lang d).1 = { tr with currentLang := lang } ∧
          (tr.setLanguage lang d).2.1 = ({ tr with currentLang := lang }.apply d).doc) ∧
      (∀ f, readProp tr.translations lang = Option.some (JsVal.host f) →
        (tr.setLanguage lang d).1 = { tr with currentLang := lang }) := by
  refine ⟨?_, ?_, ?_⟩
  · intro h
    unfold Translator.setLanguage
    rw [h]
  · intro m h
    unfold Translator.setLanguage
    rw [readProp_own h]
    simp [JsVal.truthy, LangTree.truthy]
  · intro f h
    unfold Translator.setLanguage
    rw [h]
    simp [JsVal.truthy]

theorem C3_setLanguage_witness :
    (Translator.mk "en" [("en", LangTree.node [("a", LangTree.leaf "x")])]).setLanguage "fr"
        (.elem 1 (Option.some "a") .absent "" .nil .nil .nil) =
      (Translator.mk "en" [("en", LangTree.node [("a", LangTree.leaf "x")])],
        .elem 1 (Option.some "a") .absent "" .nil .nil .nil,
        [.errorUnknownLanguage "fr"], false) ∧
      ((Translator.mk "fr" [("en", LangTree.node [("a", LangTree.leaf "x")])]).setLanguage "en"
          (.elem 1 (Option.some "a") .absent "" .nil .nil .nil)).1 =
        Translator.mk "en" [("en", LangTree.node [("a", LangTree.leaf "x")])] ∧
      ((Translator.mk "en" [("en", LangTree.node [("a", LangTree.leaf "x")])]).setLanguage
          "valueOf" (.elem 1 (Option.some "a") .absent "" .nil .nil .nil)).1 =
        Translator.mk "valueOf" [("en", LangTree.node [("a", LangTree.leaf "x")])] :=
  ⟨(C3_setLanguage (Translator.mk "en" [("en", LangTree.node [("a", LangTree.leaf "x")])])
      "fr" (.elem 1 (Option.some "a") .absent "" .nil .nil .nil)).1 rfl,
    ((C3_setLanguage (Translator.mk "fr" [("en", LangTree.node [("a", LangTree.leaf "x")])])
      "en" (.elem 1 (Option.some "a") .absent "" .nil .nil .nil)).2.1
      [("a", LangTree.leaf "x")] rfl).1,
    (C3_setLanguage (Translator.mk "en" [("en", LangTree.node [("a", LangTree.leaf "x")])])
      "valueOf" (.elem 1 (Option.some "a") .absent "" .nil .nil .nil)).2.2
      "valueOf" rfl⟩

theorem isPfx_append_self : ∀ p t : List Char, isPfx p (p ++ t) = true := by
  intro p
  induction p with
  | nil => intro t; rfl
  | cons a as ih => intro t; simp [isPfx, ih]

theorem replAuxLit_fuel (pat repl : List Char) : ∀ n m s, s.length ≤ n → s.length ≤ m →
    replAuxLit n pat repl s = replAuxLit m pat repl s := by
  intro n
  induction n with
  | zero =>
    intro m s hn _
    have hs : s = [] := List.length_eq_zero.mp (Nat.le_zero.mp hn)
    subst hs
    cases m <;> rfl
  | succ n ih =>
    intro m s hn hm
    cases s with
    | nil => cases m <;> rfl
    | cons c cs =>
      cases m with
      | zero => simp at hm
      | succ m' =>
        have hn' : cs.length ≤ n := by simp [List.length_cons] at hn; omega
        have hm' : cs.length ≤ m' := by simp [List.length_cons] at hm; omega
        simp only [replAuxLit]
        by_cases hcond : (pat ≠ [] ∧ isPfx pat (c :: cs) = true)
        · rw [if_pos hcond, if_pos hcond]
          have hd : (List.drop (pat.length - 1) cs).length ≤ cs.length := by
            rw [List.length_drop]
            omega
          rw [ih m' _ (le_trans hd hn') (le_trans hd hm')]
        · rw [if_neg hcond, if_neg hcond]
          rw [ih m' cs hn' hm']

theorem expandDollar_df (mtc pre post : List Char) : ∀ repl : List Char,
    (repl.all fun c => decide (c ≠ '$')) = true →
    expandDollar mtc pre post repl = repl := by
  intro repl
  induction repl with
  | nil => intro _; rfl
  | cons c rest ih =>
    intro h
    simp only [List.all_cons, Bool.and_eq_true, decide_eq_true_eq] at h
    have ht := ih (by simpa [List.all_eq_true, decide_eq_true_eq] using h.2)
    cases rest with
    | nil => simp only [expandDollar, if_neg h.1]
    | cons c2 rest2 => simp only [expandDollar, if_neg h.1, ht]

theorem replAux_df (pat repl : List Char)
    (h : (repl.all fun c => decide (c ≠ '$')) = true) :
    ∀ n pre s, replAux n pat repl pre s = replAuxLit n pat repl s := by
  intro n
  induction n with
  | zero => intro pre s; rfl
  | succ n ih =>
    intro pre s
    cases s with
    | nil => rfl
    | cons c cs =>
      simp only [replAux, replAuxLit]
      by_cases hcond : (pat ≠ [] ∧ isPfx pat (c :: cs) = true)
      · rw [if_pos hcond, if_pos hcond, expandDollar_df _ _ _ _ h, ih]
      · rw [if_neg hcond, if_neg hcond, ih]

theorem literalName_braceFree {s : String} (h : literalName s = true) :
    braceFree s.data = true := by
  simp only [literalName, List.all_eq_true] at h
  simp only [braceFree, List.all_eq_true]
  intro c hc
  have hch := h c hc
  simp only [literalNameChar, Bool.or_eq_true, decide_eq_true_eq] at hch
  have h1 : c ≠ '\x7b' := by
    intro he
    subst he
    rcases hch with hA | hE
    · exact absurd hA (by decide)
    · exact absurd hE (by decide)
  have h2 : c ≠ '\x7d' := by
    intro he
    subst he
    rcases hch with hA | hE
    · exact absurd hA (by decide)
    · exact absurd hE (by decide)
  simp [h1, h2]

theorem replL_cons_nomatch (pat repl cs : List Char) (c : Char)
    (h : isPfx pat (c :: cs) = false) :
    replL pat repl (c :: cs) = c :: replL pat repl cs := by
  simp only [replL, List.length_cons, replAuxLit]
  rw [if_neg]
  intro hc
  rw [h] at hc
  exact Bool.false_ne_true hc.2

theorem replL_cons_ne (pat' repl cs : List Char) (c : Char) (h : c ≠ '\x7b') :
    replL ('\x7b' :: pat') repl (c :: cs) = c :: replL ('\x7b' :: pat') repl cs := by
  have hd : decide ('\x7b' = c) = false := decide_eq_false fun he => h he.symm
  exact replL_cons_nomatch _ _ _ _ (by simp [isPfx, hd])

theorem replL_match (pat repl rest : List Char) (h : pat ≠ []) :
    replL pat repl (pat ++ rest) = repl ++ replL pat repl rest := by
  cases pat with
  | nil => exact absurd rfl h
  | cons p0 pat' =>
    simp only [replL, List.cons_append, List.length_cons, List.length_append]
    simp only [replAuxLit]
    have hcond : ((p0 :: pat') ≠ [] ∧ isPfx (p0 :: pat') (p0 :: (pat' ++ rest)) = true) :=
      ⟨by simp, by simp [isPfx, isPfx_append_self]⟩
    rw [if_pos hcond]
    have hdrop : List.drop ((p0 :: pat').length - 1) (pat' ++ rest) = rest := by
      simp only [List.length_cons, Nat.add_sub_cancel]
      exact List.drop_left pat' rest
    rw [hdrop]
    have hf : replAuxLit (pat'.length + rest.length) (p0 :: pat') repl rest =
        replAuxLit rest.length (p0 :: pat') repl rest :=
      replAuxLit_fuel _ _ _ _ _ (Nat.le_add_left _ _) (Nat.le_refl _)
    rw [hf]

theorem braceFree_cons {c : Char} {t : List Char} (h : braceFree (c :: t) = true) :
    c ≠ '\x7b' ∧ c ≠ '\x7d' ∧ braceFree t = true := by
  simp only [braceFree, List.all_cons, Bool.and_eq_true, decide_eq_true_eq] at h
  exact ⟨h.1.1, h.1.2, h.2⟩

theorem replL_free_prefix (pat' repl : List Char) : ∀ t rest : List Char,
    braceFree t = true →
    replL ('\x7b' :: pat') repl (t ++ rest) = t ++ replL ('\x7b' :: pat') repl rest := by
  intro t
  induction t with
  | nil => intro rest _; rfl
  | cons c t' ih =>
    intro rest ht
    obtain ⟨hc, _, ht'⟩ := braceFree_cons ht
    rw [List.cons_append, replL_cons_ne _ _ _ _ hc, ih rest ht']
    rfl

theorem str_data_inj {a b : String} (h : a.data = b.data) : a = b := by
  cases a
  cases b
  exact congrArg String.mk h

theorem noPfx_token : ∀ xs ys rest : List Char, braceFree xs = true → braceFree ys = true →
    xs ≠ ys → isPfx (xs ++ ['\x7d']) (ys ++ '\x7d' :: rest) = false := by
  intro xs
  induction xs with
  | nil =>
    intro ys rest _ hys hne
    cases ys with
    | nil => exact absurd rfl hne
    | cons y ys' =>
      obtain ⟨_, hy, _⟩ := braceFree_cons hys
      have hd : decide ('\x7d' = y) = false := decide_eq_false fun he => hy he.symm
      simp [isPfx, hd]
  | cons x xs' ih =>
    intro ys rest hxs hys hne
    obtain ⟨_, hx, hxs'⟩ := braceFree_cons hxs
    cases ys with
    | nil =>
      have hd : decide (x = '\x7d') = false := decide_eq_false hx
      simp [isPfx, hd]
    | cons y ys' =>
      obtain ⟨_, _, hys'⟩ := braceFree_cons hys
      by_cases hxy : x = y
      · subst hxy
        have hne' : xs' ≠ ys' := fun he => hne (he ▸ rfl)
        simp [isPfx, ih ys' rest hxs' hys' hne']
      · have hd : decide (x = y) = false := decide_eq_false hxy
        simp [isPfx, hd]

theorem replL_token_ne (nm m : String) (repl rest : List Char)
    (hn : braceFree nm.data = true) (hm : braceFree m.data = true) (hne : m ≠ nm) :
    replL (tokenL nm) repl (tokenL m ++ rest) =
      tokenL m ++ replL (tokenL nm) repl rest := by
  have hlist : m.data ≠ nm.data := fun he => hne (str_data_inj he)
  have hshape : tokenL m ++ rest = '\x7b' :: (m.data ++ '\x7d' :: rest) := by
    simp [tokenL]
  have hpfx : isPfx (tokenL nm) ('\x7b' :: (m.data ++ '\x7d' :: rest)) = false := by
    simp only [tokenL, isPfx]
    have hnp := noPfx_token nm.data m.data rest hn hm fun he => hlist he.symm
    simp [hnp]
  rw [hshape, replL_cons_nomatch _ _ _ _ hpfx]
  have hmid : replL (tokenL nm) repl (m.data ++ '\x7d' :: rest) =
      m.data ++ replL (tokenL nm) repl ('\x7d' :: rest) := by
    simp only [tokenL]
    exact replL_free_prefix _ _ _ _ hm
  rw [hmid]
  have hclose : replL (tokenL nm) repl ('\x7d' :: rest) =
      '\x7d' :: replL (tokenL nm) repl rest := by
    simp only [tokenL]
    exact replL_cons_ne _ _ _ _ (by decide)
  rw [hclose]
  simp [tokenL]

theorem wfPart_txt (s : String) : wfPart (TplPart.txt s) = braceFree s.data := rfl

theorem wfPart_ph (n : String) : wfPart (TplPart.ph n) = braceFree n.data := rfl

theorem wfParts_cons {p : TplPart} {ps : List TplPart} (h : wfParts (p :: ps) = true) :
    wfPart p = true ∧ wfParts ps = true := by
  simpa [wfParts, List.all_cons, Bool.and_eq_true] using h

theorem renderT_cons (p : TplPart) (ps : List TplPart) :
    renderT (p :: ps) = p.render ++ renderT ps := by
  simp [renderT]

theorem replL_render (nm v : String) (hn : braceFree nm.data = true) :
    ∀ ps : List TplPart, wfParts ps = true →
    replL (tokenL nm) v.data (renderT ps) = renderT (ps.map (substOne nm v)) := by
  intro ps
  induction ps with
  | nil => intro _; rfl
  | cons p ps' ih =>
    intro hwf
    obtain ⟨hp, hps'⟩ := wfParts_cons hwf
    rw [List.map_cons, renderT_cons, renderT_cons]
    cases p with
    | txt s =>
      rw [wfPart_txt] at hp
      have hrend : (TplPart.txt s).render = s.data := rfl
      rw [hrend]
      have hfree : replL (tokenL nm) v.data (s.data ++ renderT ps') =
          s.data ++ replL (tokenL nm) v.data (renderT ps') := by
        simp only [tokenL]
        exact replL_free_prefix _ _ _ _ hp
      rw [hfree, ih hps']
      rfl
    | ph m =>
      rw [wfPart_ph] at hp
      have hrend : (TplPart.ph m).render = tokenL m := rfl
      rw [hrend]
      by_cases hm : m = nm
      · subst hm
        rw [replL_match _ _ _ (by simp [tokenL]), ih hps']
        simp [substOne, TplPart.render]
      · rw [replL_token_ne nm m v.data (renderT ps') hn hp hm, ih hps']
        simp [substOne, hm, TplPart.render]

theorem wfParts_substOne (nm v : String) (hv : braceFree v.data = true) :
    ∀ ps : List TplPart, wfParts ps = true → wfParts (ps.map (substOne nm v)) = true := by
  intro ps
  induction ps with
  | nil => intro _; rfl
  | cons p ps' ih =>
    intro hwf
    obtain ⟨hp, hps'⟩ := wfParts_cons hwf
    have htail := ih hps'
    rw [List.map_cons]
    simp only [wfParts, List.all_cons, Bool.and_eq_true]
    refine ⟨?_, by simpa [wfParts] using htail⟩
    cases p with
    | txt s => simpa [substOne, wfPart_txt] using hp
    | ph m =>
      by_cases hm : m = nm
      · simpa [substOne, hm, wfPart_txt] using hv
      · simpa [substOne, hm, wfPart_ph] using hp

theorem substVars_nil (p : TplPart) : substVars [] p = p := by
  cases p <;> rfl

theorem substVars_cons (nm v : String) (vs : List (String × String)) (p : TplPart) :
    substVars vs (substOne nm v p) = substVars ((nm, v) :: vs) p := by
  cases p with
  | txt s => rfl
  | ph m =>
    by_cases hm : m = nm
    · subst hm
      simp [substOne, substVars, varLookup]
    · simp only [substOne, substVars, varLookup, if_neg hm]
      rw [if_neg fun he : nm = m => hm he.symm]

theorem interpolate_cons (s : String) (p : String × String) (vs : List (String × String)) :
    interpolate s (p :: vs) = interpolate (replaceAll s (phToken p.1) p.2) vs := rfl

theorem varsWF_cons {p : String × String} {vs : List (String × String)}
    (h : varsWF (p :: vs) = true) :
    literalName p.1 = true ∧ braceFree p.2.data = true ∧ dollarFree p.2 = true ∧
      varsWF vs = true := by
  simpa [varsWF, List.all_cons, Bool.and_eq_true, and_assoc] using h

/-- C4 amended: for every template of well-formed shape (brace-free
literal text and placeholder names) and every well-formed VarsMap — names
in the literal-regex regime, values brace- and `$`-free — the placeholder
loop of `get` performs exactly simultaneous token substitution: every
literal occurrence of the exact token `\x7bname\x7d` — all N of them —
is replaced by the string form of the value bound to `name`, and every
placeholder token whose name has no VarsMap entry is left in the output
verbatim.  Outside that regime the loop is not verbatim substitution:
`$`-patterns in values are expanded (see the counterexample), and names
with regex metacharacters compile to non-literal matchers (the case the
spec declares implementation-defined). -/
theorem C4_interpolation (vars : List (String × String)) : ∀ ps : List TplPart,
    wfParts ps = true → varsWF vars = true →
    interpolate (String.mk (renderT ps)) vars =
      String.mk (renderT (ps.map (substVars vars))) := by
  induction vars with
  | nil =>
    intro ps _ _
    rw [interpolate_nil]
    have hmap : ps.map (substVars []) = ps := by
      have hid : ∀ p ∈ ps, substVars [] p = id p := fun p _ => substVars_nil p
      rw [List.map_congr_left hid, List.map_id]
    rw [hmap]
  | cons nv vs ih =>
    intro ps hps hv
    obtain ⟨hlit, hvv, hdv, hvs⟩ := varsWF_cons hv
    have hnm : braceFree nv.1.data = true := literalName_braceFree hlit
    rw [interpolate_cons]
    have hrepl : replaceAll (String.mk (renderT ps)) (phToken nv.1) nv.2 =
        String.mk (renderT (ps.map (substOne nv.1 nv.2))) := by
      have hbr : replaceAll (String.mk (renderT ps)) (phToken nv.1) nv.2 =
          String.mk (replL (tokenL nv.1) nv.2.data (renderT ps)) := by
        unfold replaceAll replL
        rw [replAux_df _ _ hdv]
        rfl
      rw [hbr, replL_render nv.1 nv.2 hnm ps hps]
    rw [hrepl, ih _ (wfParts_substOne nv.1 nv.2 hvv ps hps) hvs, List.map_map]
    have hfuse : (ps.map (substVars vs ∘ substOne nv.1 nv.2)) =
        ps.map (substVars ((nv.1, nv.2) :: vs)) :=
      List.map_congr_left fun p _ => substVars_cons nv.1 nv.2 vs p
    rw [hfuse]

/-- C4 counterexample: a VarsMap value is not always inserted verbatim:
with value `"$&"` the replacement-pattern expansion of `String.replace`
re-emits the matched token, so `get`'s loop turns the template
`"\x7bx\x7d"` into `"\x7bx\x7d"` again — not into the claimed string
form `"$&"` of the bound value. -/
theorem C4_counterexample :
    interpolate "\x7bx\x7d" [("x", "$&")] = "\x7bx\x7d" ∧
      ("\x7bx\x7d" : String) ≠ "$&" :=
  ⟨rfl, by decide⟩

theorem C4_interpolation_witness :
    interpolate "\x7bx\x7d and \x7bx\x7d, \x7by\x7d" [("x", "v")] = "v and v, \x7by\x7d" := by
  have h := C4_interpolation [("x", "v")]
    [TplPart.ph "x", TplPart.txt " and ", TplPart.ph "x", TplPart.txt ", ", TplPart.ph "y"]
    (by decide) (by decide)
  have e1 : String.mk (renderT
      [TplPart.ph "x", TplPart.txt " and ", TplPart.ph "x", TplPart.txt ", ",
        TplPart.ph "y"]) = "\x7bx\x7d and \x7bx\x7d, \x7by\x7d" := rfl
  have e2 : String.mk (renderT
      ([TplPart.ph "x", TplPart.txt " and ", TplPart.ph "x", TplPart.txt ", ",
        TplPart.ph "y"].map (substVars [("x", "v")]))) = "v and v, \x7by\x7d" := rfl
  rw [e1, e2] at h
  exact h

theorem renderOf_eq_written (tr : Translator) (key : String) (va : VarsAttr) :
    renderOf tr key va = written (tr.get key (decodeVars key va).1).1 := rfl

theorem translatePass_ok (tr : Translator) : ∀ d : Dom, (translatePass tr d).err = false →
    (∀ it ∈ lightAnn d, renderOf tr it.2.1 it.2.2 ≠ Option.none) ∧
      (translatePass tr d).trace = (lightAnn d).map (expEntry tr) ∧
      (translatePass tr d).logs = ((lightAnn d).map (nodeLogs tr)).flatten := by
  intro d
  induction d with
  | nil => intro _; exact ⟨by simp [lightAnn], rfl, rfl⟩
  | elem i k va c sh ch sib ihsh ihch ihsib =>
    intro herr
    cases k with
    | some key =>
      cases hw : written (tr.get key (decodeVars key va).1).1 with
      | none => simp [translatePass, hw] at herr
      | some w =>
        cases hrc : (translatePass tr ch).err with
        | true => simp [translatePass, hw, hrc] at herr
        | false =>
          have hrs : (translatePass tr sib).err = false := by
            simpa [translatePass, hw, hrc] using herr
          obtain ⟨hc1, hc2, hc3⟩ := ihch hrc
          obtain ⟨hs1, hs2, hs3⟩ := ihsib hrs
          have hexp : expEntry tr (i, key, va) = (i, w) := by
            simp [expEntry, renderOf_eq_written, hw]
          refine ⟨?_, ?_, ?_⟩
          · intro it hit
            simp only [lightAnn, List.cons_append, List.mem_cons, List.mem_append] at hit
            rcases hit with h | h | h | h
            · subst h
              simp [renderOf_eq_written, hw]
            · simp at h
            · exact hc1 it h
            · exact hs1 it h
          · simp [translatePass, hw, hrc, lightAnn, hexp, hc2, hs2]
          · simp [translatePass, hw, hrc, lightAnn, hc3, hs3, nodeLogs, List.append_assoc]
    | none =>
      cases hrc : (translatePass tr ch).err with
      | true => simp [translatePass, hrc] at herr
      | false =>
        have hrs : (translatePass tr sib).err = false := by
          simpa [translatePass, hrc] using herr
        obtain ⟨hc1, hc2, hc3⟩ := ihch hrc
        obtain ⟨hs1, hs2, hs3⟩ := ihsib hrs
        refine ⟨?_, ?_, ?_⟩
        · intro it hit
          simp only [lightAnn, List.mem_append, List.nil_append] at hit
          rcases hit with h | h
          · exact hc1 it h
          · exact hs1 it h
        · simp [translatePass, hrc, lightAnn, hc2, hs2]
        · simp [translatePass, hrc, lightAnn, hc3, hs3]

theorem hosts_shadowFree : ∀ d : Dom, shadowFree d = true → hosts d = [] := by
  intro d
  induction d with
  | nil => intro _; rfl
  | elem i k va c sh ch sib ihsh ihch ihsib =>
    intro h
    cases sh with
    | nil =>
      simp only [shadowFree, Bool.true_and, Bool.and_eq_true] at h
      simp [hosts, ihch h.1, ihsib h.2]
    | elem a b c' d' e f g => simp [shadowFree] at h

theorem safe_elem_ann {i : Nat} {key : String} {va : VarsAttr} {c : String} {sh ch sib : Dom}
    (h : safe (Dom.elem i (Option.some key) va c sh ch sib) = true) :
    shadowFree ch = true ∧ safe sh = true ∧ safe sib = true := by
  simpa [safe, Bool.and_eq_true, and_assoc] using h

theorem safe_elem_plain {i : Nat} {va : VarsAttr} {c : String} {sh ch sib : Dom}
    (h : safe (Dom.elem i Option.none va c sh ch sib) = true) :
    safe ch = true ∧ safe sh = true ∧ safe sib = true := by
  simpa [safe, Bool.and_eq_true, and_assoc] using h

theorem translatePass_hosts (tr : Translator) : ∀ d : Dom, (translatePass tr d).err = false →
    safe d = true → hosts (translatePass tr d).doc = hosts d := by
  intro d
  induction d with
  | nil => intro _ _; rfl
  | elem i k va c sh ch sib ihsh ihch ihsib =>
    intro herr hsafe
    cases k with
    | some key =>
      obtain ⟨hchfree, hshsafe, hsibsafe⟩ := safe_elem_ann hsafe
      cases hw : written (tr.get key (decodeVars key va).1).1 with
      | none => simp [translatePass, hw] at herr
      | some w =>
        cases hrc : (translatePass tr ch).err with
        | true => simp [translatePass, hw, hrc] at herr
        | false =>
          have hrs : (translatePass tr sib).err = false := by
            simpa [translatePass, hw, hrc] using herr
          simp [translatePass, hw, hrc, hosts, ihsib hrs hsibsafe,
            hosts_shadowFree ch hchfree]
    | none =>
      obtain ⟨hchsafe, hshsafe, hsibsafe⟩ := safe_elem_plain hsafe
      cases hrc : (translatePass tr ch).err with
      | true => simp [translatePass, hrc] at herr
      | false =>
        have hrs : (translatePass tr sib).err = false := by
          simpa [translatePass, hrc] using herr
        simp [translatePass, hrc, hosts, ihch hrc hchsafe, ihsib hrs hsibsafe]

theorem safe_hosts : ∀ d : Dom, safe d = true → ∀ s ∈ hosts d, safe s = true := by
  intro d
  induction d with
  | nil => intro _ s hs; simp [hosts] at hs
  | elem i k va c sh ch sib ihsh ihch ihsib =>
    intro hsafe s hs
    simp only [hosts, List.mem_append] at hs
    cases k with
    | some key =>
      obtain ⟨hchfree, hshsafe, hsibsafe⟩ := safe_elem_ann hsafe
      rcases hs with h | h | h
      · cases sh with
        | nil => simp at h
        | elem a b c' d' e f g =>
          simp only [List.mem_singleton] at h
          subst h
          exact hshsafe
      · rw [hosts_shadowFree ch hchfree] at h
        simp at h
      · exact ihsib hsibsafe s h
    | none =>
      obtain ⟨hchsafe, hshsafe, hsibsafe⟩ := safe_elem_plain hsafe
      rcases hs with h | h | h
      · cases sh with
        | nil => simp at h
        | elem a b c' d' e f g =>
          simp only [List.mem_singleton] at h
          subst h
          exact hshsafe
      · exact ihch hchsafe s h
      · exact ihsib hsibsafe s h

theorem sdepth_hosts : ∀ d : Dom, ∀ s ∈ hosts d, sdepth s < sdepth d := by
  intro d
  induction d with
  | nil => intro s hs; simp [hosts] at hs
  | elem i k va c sh ch sib ihsh ihch ihsib =>
    intro s hs
    simp only [hosts, List.mem_append] at hs
    rcases hs with h | h | h
    · cases sh with
      | nil => simp at h
      | elem a b c' d' e f g =>
        simp only [List.mem_singleton] at h
        subst h
        simp only [sdepth]
        omega
    · have hlt := ihch s h
      cases sh <;> simp only [sdepth] <;> omega
    · have hlt := ihsib s h
      cases sh <;> simp only [sdepth] <;> omega

theorem shadowPass_ok (rec : Dom → RenderOut) : ∀ d : Dom, (shadowPass rec d).err = false →
    (∀ s ∈ hosts d, (rec s).err = false) ∧
      (shadowPass rec d).trace = ((hosts d).map (fun s => (rec s).trace)).flatten ∧
      (shadowPass rec d).logs = ((hosts d).map (fun s => (rec s).logs)).flatten := by
  intro d
  induction d with
  | nil => intro _; exact ⟨by simp [hosts], rfl, rfl⟩
  | elem i k va c sh ch sib ihsh ihch ihsib =>
    intro herr
    cases sh with
    | nil =>
      cases hrc : (shadowPass rec ch).err with
      | true => simp [shadowPass, hrc] at herr
      | false =>
        have hrs : (shadowPass rec sib).err = false := by
          simpa [shadowPass, hrc] using herr
        obtain ⟨hc1, hc2, hc3⟩ := ihch hrc
        obtain ⟨hs1, hs2, hs3⟩ := ihsib hrs
        refine ⟨?_, ?_, ?_⟩
        · intro s hs
          simp only [hosts, List.nil_append, List.mem_append] at hs
          rcases hs with h | h
          · exact hc1 s h
          · exact hs1 s h
        · simp [shadowPass, hrc, hosts, hc2, hs2]
        · simp [shadowPass, hrc, hosts, hc3, hs3]
    | elem a b c2 d2 e f g =>
      cases hrh : (rec (Dom.elem a b c2 d2 e f g)).err with
      | true => simp [shadowPass, hrh] at herr
      | false =>
        cases hrc : (shadowPass rec ch).err with
        | true => simp [shadowPass, hrh, hrc] at herr
        | false =>
          have hrs : (shadowPass rec sib).err = false := by
            simpa [shadowPass, hrh, hrc] using herr
          obtain ⟨hc1, hc2, hc3⟩ := ihch hrc
          obtain ⟨hs1, hs2, hs3⟩ := ihsib hrs
          refine ⟨?_, ?_, ?_⟩
          · intro s hs
            simp only [hosts, List.cons_append, List.mem_cons, List.nil_append,
              List.mem_append] at hs
            rcases hs with h | h | h
            · subst h
              exact hrh
            · exact hc1 s h
            · exact hs1 s h
          · simp [shadowPass, hrh, hrc, hosts, hc2, hs2, List.append_assoc]
          · simp [shadowPass, hrh, hrc, hosts, hc3, hs3, List.append_assoc]

theorem flatten_map_perm {α β : Type} (f g : α → List β) : ∀ L : List α,
    (∀ s ∈ L, List.Perm (f s) (g s)) →
    List.Perm ((L.map f).flatten) ((L.map g).flatten) := by
  intro L
  induction L with
  | nil => intro _; exact List.Perm.refl _
  | cons a L ih =>
    intro h
    simp only [List.map_cons, List.flatten_cons]
    exact (h a (by simp)).append (ih fun s hs => h s (by simp [hs]))

theorem flatten_map_flatten {α β : Type} (f : α → List β) : ∀ L : List (List α),
    ((L.flatten).map f).flatten = (L.map (fun l => (l.map f).flatten)).flatten := by
  intro L
  induction L with
  | nil => rfl
  | cons a L ih =>
    simp only [List.flatten_cons, List.map_cons, List.map_append, List.flatten_append, ih]

theorem reachAnn_perm : ∀ d : Dom,
    List.Perm (reachAnn d) (lightAnn d ++ ((hosts d).map reachAnn).flatten) := by
  intro d
  induction d with
  | nil => simp [reachAnn, lightAnn, hosts]
  | elem i k va c sh ch sib ihsh ihch ihsib =>
    have hch := Multiset.coe_eq_coe.mpr ihch
    have hsib := Multiset.coe_eq_coe.mpr ihsib
    simp only [← Multiset.coe_add] at hch hsib
    rw [← Multiset.coe_eq_coe]
    cases sh with
    | nil =>
      simp only [reachAnn, lightAnn, hosts, List.nil_append, List.map_append,
        List.flatten_append, List.append_assoc, List.map_nil, List.flatten_nil,
        List.append_nil]
      cases k with
      | some key =>
        simp only [← Multiset.coe_add]
        rw [hch, hsib]
        ac_rfl
      | none =>
        simp only [← Multiset.coe_add]
        rw [hch, hsib]
        ac_rfl
    | elem a b c2 d2 e f g =>
      simp only [reachAnn, lightAnn, hosts, List.cons_append, List.map_cons,
        List.flatten_cons, List.map_append, List.flatten_append, List.append_assoc,
        List.map_nil, List.flatten_nil, List.append_nil, List.nil_append]
      cases k with
      | some key =>
        simp only [← Multiset.coe_add]
        rw [hch, hsib]
        ac_rfl
      | none =>
        simp only [← Multiset.coe_add]
        rw [hch, hsib]
        ac_rfl

theorem translateF_ok (tr : Translator) : ∀ n : Nat, ∀ d : Dom, sdepth d < n →
    safe d = true → (translateF n tr d).err = false →
    (∀ it ∈ reachAnn d, renderOf tr it.2.1 it.2.2 ≠ Option.none) ∧
      List.Perm (translateF n tr d).trace ((reachAnn d).map (expEntry tr)) ∧
      List.Perm (translateF n tr d).logs (((reachAnn d).map (nodeLogs tr)).flatten) := by
  intro n
  induction n with
  | zero => intro d hd; exact absurd hd (Nat.not_lt_zero _)
  | succ n ih =>
    intro d hd hsafe herr
    cases hr1 : (translatePass tr d).err with
    | true => simp [translateF, hr1] at herr
    | false =>
      have herr2 : (shadowPass (translateF n tr) (translatePass tr d).doc).err = false := by
        simpa [translateF, hr1] using herr
      obtain ⟨hl1, hl2, hl3⟩ := translatePass_ok tr d hr1
      have hhosts : hosts (translatePass tr d).doc = hosts d :=
        translatePass_hosts tr d hr1 hsafe
      obtain ⟨hsh1, hsh2, hsh3⟩ := shadowPass_ok (translateF n tr) _ herr2
      rw [hhosts] at hsh1 hsh2 hsh3
      have hrec : ∀ s ∈ hosts d,
          (∀ it ∈ reachAnn s, renderOf tr it.2.1 it.2.2 ≠ Option.none) ∧
            List.Perm (translateF n tr s).trace ((reachAnn s).map (expEntry tr)) ∧
            List.Perm (translateF n tr s).logs
              (((reachAnn s).map (nodeLogs tr)).flatten) := by
        intro s hs
        have hsd : sdepth s < n :=
          lt_of_lt_of_le (sdepth_hosts d s hs) (Nat.lt_succ_iff.mp hd)
        exact ih s hsd (safe_hosts d hsafe s hs) (hsh1 s hs)
      have htrace : (translateF (Nat.succ n) tr d).trace =
          (translatePass tr d).trace ++
            (shadowPass (translateF n tr) (translatePass tr d).doc).trace := by
        simp [translateF, hr1]
      have hlogs : (translateF (Nat.succ n) tr d).logs =
          (translatePass tr d).logs ++
            (shadowPass (translateF n tr) (translatePass tr d).doc).logs := by
        simp [translateF, hr1]
      refine ⟨?_, ?_, ?_⟩
      · intro it hit
        have hmem := (reachAnn_perm d).mem_iff.mp hit
        rcases List.mem_append.mp hmem with h | h
        · exact hl1 it h
        · obtain ⟨l, hl, hitl⟩ := List.mem_flatten.mp h
          obtain ⟨s, hsmem, rfl⟩ := List.mem_map.mp hl
          exact ((hrec s hsmem).1) it hitl
      · rw [htrace, hl2, hsh2]
        have hstep : List.Perm
            (((hosts d).map (fun s => (translateF n tr s).trace)).flatten)
            (((hosts d).map (fun s => (reachAnn s).map (expEntry tr))).flatten) :=
          flatten_map_perm _ _ _ (fun s hs => ((hrec s hs).2.1))
        refine (List.Perm.append_left _ hstep).trans ?_
        have heq : (lightAnn d).map (expEntry tr) ++
            (((hosts d).map (fun s => (reachAnn s).map (expEntry tr))).flatten) =
            ((lightAnn d ++ ((hosts d).map reachAnn).flatten).map (expEntry tr)) := by
          simp only [List.map_append, List.map_flatten, List.map_map]
          rfl
        rw [heq]
        exact ((reachAnn_perm d).map (expEntry tr)).symm
      · rw [hlogs, hl3, hsh3]
        have hstep : List.Perm
            (((hosts d).map (fun s => (translateF n tr s).logs)).flatten)
            (((hosts d).map
              (fun s => ((reachAnn s).map (nodeLogs tr)).flatten)).flatten) :=
          flatten_map_perm _ _ _ (fun s hs => ((hrec s hs).2.2))
        refine (List.Perm.append_left _ hstep).trans ?_
        have heq : ((lightAnn d).map (nodeLogs tr)).flatten ++
            (((hosts d).map
              (fun s => ((reachAnn s).map (nodeLogs tr)).flatten)).flatten) =
            (((lightAnn d ++ ((hosts d).map reachAnn).flatten).map
              (nodeLogs tr)).flatten) := by
          rw [List.map_append, List.flatten_append]
          congr 1
          rw [flatten_map_flatten (nodeLogs tr) ((hosts d).map reachAnn), List.map_map]
          rfl
        rw [heq]
        exact (((reachAnn_perm d).map (nodeLogs tr)).flatten).symm

theorem filter_expEntry_nil (tr : Translator) (i : Nat) :
    ∀ L : List (Nat × String × VarsAttr), i ∉ L.map (fun it => it.1) →
    (L.map (expEntry tr)).filter (fun p => decide (p.1 = i)) = [] := by
  intro L
  induction L with
  | nil => intro _; rfl
  | cons a L ih =>
    intro h
    simp only [List.map_cons, List.mem_cons, not_or] at h
    have hni : ((expEntry tr a).1 = i) = False := by
      simp only [expEntry]
      exact eq_false fun he => h.1 he.symm
    simp only [List.map_cons, List.filter_cons, hni]
    simpa using ih h.2

theorem filter_expEntry_nodup (tr : Translator) (i : Nat) (k : String) (va : VarsAttr) :
    ∀ L : List (Nat × String × VarsAttr), (L.map (fun it => it.1)).Nodup →
    (i, k, va) ∈ L →
    (L.map (expEntry tr)).filter (fun p => decide (p.1 = i)) =
      [(i, (renderOf tr k va).getD "")] := by
  intro L
  induction L with
  | nil => intro _ h; simp at h
  | cons a L ih =>
    intro hnd hmem
    rw [List.map_cons] at hnd
    have hpair := List.nodup_cons.mp hnd
    rcases List.mem_cons.mp hmem with heq | hmem'
    · subst heq
      simp only [List.map_cons, List.filter_cons]
      have hc : (decide ((expEntry tr (i, k, va)).1 = i)) = true := by simp [expEntry]
      rw [hc]
      simp only [if_true]
      rw [filter_expEntry_nil tr i L hpair.1]
      rfl
    · have hne : ((expEntry tr a).1 = i) = False := by
        simp only [expEntry]
        refine eq_false fun he => hpair.1 ?_
        rw [he]
        exact List.mem_map.mpr ⟨(i, k, va), hmem', rfl⟩
      simp only [List.map_cons, List.filter_cons, hne]
      simpa using ih hpair.2 hmem'

/-- C7 counterexample: one annotated element whose light-DOM child hosts a
shadow tree containing another annotated element.  Rendering the outer
element replaces its children before the shadow-descent step runs, so the
inner annotated element — reachable through the encapsulated sub-tree in
the original document — is never visited: the pass completes without
error, yet the trace holds only the outer write. -/
theorem C7_counterexample :
    ((3 : Nat), "k2", VarsAttr.absent) ∈ reachAnn
        (Dom.elem 1 (Option.some "k1") .absent "" .nil
          (Dom.elem 2 Option.none .absent ""
            (Dom.elem 3 (Option.some "k2") .absent "" .nil .nil .nil) .nil .nil) .nil) ∧
      ((Translator.mk "en" [("en", .node [("k1", .leaf "T1"), ("k2", .leaf "T2")])]).translateNode
          (Dom.elem 1 (Option.some "k1") .absent "" .nil
            (Dom.elem 2 Option.none .absent ""
              (Dom.elem 3 (Option.some "k2") .absent "" .nil .nil .nil) .nil .nil) .nil)).err
        = false ∧
      ((Translator.mk "en" [("en", .node [("k1", .leaf "T1"), ("k2", .leaf "T2")])]).translateNode
          (Dom.elem 1 (Option.some "k1") .absent "" .nil
            (Dom.elem 2 Option.none .absent ""
              (Dom.elem 3 (Option.some "k2") .absent "" .nil .nil .nil) .nil .nil) .nil)).trace
        = [(1, "T1")] := by
  refine ⟨by decide, rfl, rfl⟩

/-- C7 amended: provided no annotated element's light descendants host an
encapsulated sub-tree (`safe`) and the pass completes without a thrown
fault, a single `apply()` visits every annotated node reachable through
any depth of nested shadow sub-trees exactly once — its id receives
exactly one innerHTML write — and writes the string form of
`get(key, vars)` as that node's content. -/
theorem C7_amended (tr : Translator) (d : Dom) (hsafe : safe d = true)
    (hids : ((reachAnn d).map (fun it => it.1)).Nodup)
    (herr : (tr.translateNode d).err = false) :
    ∀ i k va, (i, k, va) ∈ reachAnn d →
      ((tr.translateNode d).trace.filter fun p => decide (p.1 = i)) =
          [(i, (renderOf tr k va).getD "")] ∧
        renderOf tr k va ≠ Option.none := by
  have h := translateF_ok tr (sdepth d + 1) d (Nat.lt_succ_self _) hsafe herr
  intro i k va hmem
  constructor
  · have hperm : List.Perm
        ((tr.translateNode d).trace.filter fun p => decide (p.1 = i))
        (((reachAnn d).map (expEntry tr)).filter fun p => decide (p.1 = i)) :=
      (h.2.1).filter _
    rw [filter_expEntry_nodup tr i k va (reachAnn d) hids hmem] at hperm
    exact List.perm_singleton.mp hperm
  · exact h.1 (i, k, va) hmem

theorem C7_amended_witness :
    (((Translator.mk "en"
        [("en", .node [("a", .leaf "A"), ("b", .leaf "B"), ("c", .leaf "C")])]).translateNode
          (Dom.elem 1 (Option.some "a") .absent ""
            (Dom.elem 2 (Option.some "b") .absent ""
              (Dom.elem 3 (Option.some "c") .absent "" .nil .nil .nil) .nil .nil)
            .nil .nil)).trace.filter fun p => decide (p.1 = 3)) =
      [(3, (renderOf (Translator.mk "en"
        [("en", .node [("a", .leaf "A"), ("b", .leaf "B"), ("c", .leaf "C")])])
          "c" VarsAttr.absent).getD "")] :=
  (C7_amended (Translator.mk "en"
      [("en", .node [("a", .leaf "A"), ("b", .leaf "B"), ("c", .leaf "C")])])
    (Dom.elem 1 (Option.some "a") .absent ""
      (Dom.elem 2 (Option.some "b") .absent ""
        (Dom.elem 3 (Option.some "c") .absent "" .nil .nil .nil) .nil .nil)
      .nil .nil)
    (by decide) (by decide) rfl 3 "c" VarsAttr.absent (by decide)).1

/-- C9 counterexample: a node whose `data-translate-vars` attribute is the
empty string.  `JSON.parse("")` throws, so this serialized VarsMap fails
to decode, but `if (varsAttr)` treats the empty attribute as falsy and
skips the parse entirely: the pass emits no malformed-vars notification at
all (it renders with empty vars). -/
theorem C9_counterexample :
    (Translator.mk "en" [("en", .node [("g", .leaf "Hi \x7bn\x7d")])]).translateNode
        (Dom.elem 1 (Option.some "g") VarsAttr.emptyStr "orig" .nil .nil .nil) =
      ⟨false, Dom.elem 1 (Option.some "g") VarsAttr.emptyStr "Hi \x7bn\x7d" .nil .nil .nil,
        [], [(1, "Hi \x7bn\x7d")]⟩ := rfl

/-- C9 amended: for every annotated node reachable in the document whose
nonempty serialized VarsMap attribute fails to decode, a pass that
completes without a thrown fault (over a `safe` document with distinct
node ids) emits a malformed-vars notification scoped with that node's key,
substitutes an empty VarsMap, and still renders the node exactly once —
writing the stored template itself, every placeholder token left
untouched. -/
theorem C9_amended (tr : Translator) (d : Dom) (i : Nat) (k : String)
    (hsafe : safe d = true) (hids : ((reachAnn d).map (fun it => it.1)).Nodup)
    (herr : (tr.translateNode d).err = false)
    (hmem : (i, k, VarsAttr.broken) ∈ reachAnn d) :
    LogEvent.errorMalformedVars k ∈ (tr.translateNode d).logs ∧
      ((tr.translateNode d).trace.filter fun p => decide (p.1 = i)) =
        [(i, (renderOf tr k VarsAttr.broken).getD "")] ∧
      renderOf tr k VarsAttr.broken = written (tr.get k []).1 ∧
      (∀ lt s, getProp tr.translations tr.currentLang = Option.some lt →
        storedAt lt (jsSplitDot k) = Option.some s → s ≠ "" →
        ((tr.translateNode d).trace.filter fun p => decide (p.1 = i)) = [(i, s)]) := by
  have h := translateF_ok tr (sdepth d + 1) d (Nat.lt_succ_self _) hsafe herr
  have hfilter : ((tr.translateNode d).trace.filter fun p => decide (p.1 = i)) =
      [(i, (renderOf tr k VarsAttr.broken).getD "")] := by
    have hperm : List.Perm
        ((tr.translateNode d).trace.filter fun p => decide (p.1 = i))
        (((reachAnn d).map (expEntry tr)).filter fun p => decide (p.1 = i)) :=
      (h.2.1).filter _
    rw [filter_expEntry_nodup tr i k VarsAttr.broken (reachAnn d) hids hmem] at hperm
    exact List.perm_singleton.mp hperm
  refine ⟨?_, hfilter, rfl, ?_⟩
  · have hmem2 : LogEvent.errorMalformedVars k ∈
        ((reachAnn d).map (nodeLogs tr)).flatten := by
      refine List.mem_flatten.mpr
        ⟨nodeLogs tr (i, k, VarsAttr.broken), List.mem_map.mpr ⟨_, hmem, rfl⟩, ?_⟩
      simp [nodeLogs, decodeVars]
    exact (h.2.2).mem_iff.mpr hmem2
  · intro lt s h1 h2 h3
    have hget : tr.get k [] = (.ok (interpolate s []), []) := get_stored tr k [] lt s h1 h2 h3
    rw [hfilter]
    have hrend : renderOf tr k VarsAttr.broken = Option.some s := by
      show written (tr.get k []).1 = Option.some s
      rw [hget]
      simp [written, interpolate_nil]
    rw [hrend]
    rfl

theorem C9_amended_witness :
    LogEvent.errorMalformedVars "g" ∈
        ((Translator.mk "en" [("en", .node [("g", .leaf "Hi \x7bn\x7d")])]).translateNode
          (Dom.elem 1 (Option.some "g") VarsAttr.broken "orig" .nil .nil .nil)).logs ∧
      (((Translator.mk "en" [("en", .node [("g", .leaf "Hi \x7bn\x7d")])]).translateNode
          (Dom.elem 1 (Option.some "g") VarsAttr.broken "orig" .nil .nil .nil)).trace.filter
        fun p => decide (p.1 = 1)) = [(1, "Hi \x7bn\x7d")] := by
  have h := C9_amended (Translator.mk "en" [("en", .node [("g", .leaf "Hi \x7bn\x7d")])])
    (Dom.elem 1 (Option.some "g") VarsAttr.broken "orig" .nil .nil .nil) 1 "g"
    (by decide) (by decide) rfl (by decide)
  refine ⟨h.1, ?_⟩
  exact h.2.2.2 (LangTree.node [("g", LangTree.leaf "Hi \x7bn\x7d")]) "Hi \x7bn\x7d"
    rfl rfl (by decide)

theorem renderFixed_nil (tr : Translator) : renderFixed tr Dom.nil := trivial

theorem translatePass_fixed (tr : Translator) : ∀ d : Dom, renderFixed tr d →
    (translatePass tr d).err = false ∧ (translatePass tr d).doc = d := by
  intro d
  induction d with
  | nil => intro _; exact ⟨rfl, rfl⟩
  | elem i k va c sh ch sib ihsh ihch ihsib =>
    intro hfix
    cases k with
    | some key =>
      simp only [renderFixed] at hfix
      obtain ⟨⟨hrend, hch⟩, _, hsibfix⟩ := hfix
      subst hch
      have hw : written (tr.get key (decodeVars key va).1).1 = Option.some c := hrend
      obtain ⟨hse, hsd⟩ := ihsib hsibfix
      refine ⟨?_, ?_⟩
      · simp [translatePass, hw, hse]
      · simp [translatePass, hw, hse, hsd]
    | none =>
      simp only [renderFixed] at hfix
      obtain ⟨hchfix, _, hsibfix⟩ := hfix
      obtain ⟨hce, hcd⟩ := ihch hchfix
      obtain ⟨hse, hsd⟩ := ihsib hsibfix
      refine ⟨?_, ?_⟩
      · simp [translatePass, hce, hse]
      · simp [translatePass, hce, hse, hcd, hsd]

theorem translatePass_lightFixed (tr : Translator) : ∀ d : Dom,
    (translatePass tr d).err = false → lightFixed tr (translatePass tr d).doc := by
  intro d
  induction d with
  | nil => intro _; trivial
  | elem i k va c sh ch sib ihsh ihch ihsib =>
    intro herr
    cases k with
    | some key =>
      cases hw : written (tr.get key (decodeVars key va).1).1 with
      | none => simp [translatePass, hw] at herr
      | some w =>
        cases hrc : (translatePass tr ch).err with
        | true => simp [translatePass, hw, hrc] at herr
        | false =>
          have hrs : (translatePass tr sib).err = false := by
            simpa [translatePass, hw, hrc] using herr
          have hd : (translatePass tr (Dom.elem i (Option.some key) va c sh ch sib)).doc =
              Dom.elem i (Option.some key) va w sh Dom.nil (translatePass tr sib).doc := by
            simp [translatePass, hw, hrc]
          rw [hd]
          simp only [lightFixed]
          exact ⟨⟨by rw [renderOf_eq_written, hw], by trivial⟩, ihsib hrs⟩
    | none =>
      cases hrc : (translatePass tr ch).err with
      | true => simp [translatePass, hrc] at herr
      | false =>
        have hrs : (translatePass tr sib).err = false := by
          simpa [translatePass, hrc] using herr
        have hd : (translatePass tr (Dom.elem i Option.none va c sh ch sib)).doc =
            Dom.elem i Option.none va c sh (translatePass tr ch).doc
              (translatePass tr sib).doc := by
          simp [translatePass, hrc]
        rw [hd]
        simp only [lightFixed]
        exact ⟨ihch hrc, ihsib hrs⟩

theorem sdepth_translatePass_le (tr : Translator) : ∀ d : Dom,
    sdepth (translatePass tr d).doc ≤ sdepth d := by
  intro d
  induction d with
  | nil => exact Nat.le_refl _
  | elem i k va c sh ch sib ihsh ihch ihsib =>
    cases k with
    | some key =>
      cases hw : written (tr.get key (decodeVars key va).1).1 with
      | none => simp [translatePass, hw]
      | some w =>
        cases hrc : (translatePass tr ch).err with
        | true =>
          simp only [translatePass, hw, hrc]
          cases sh <;> simp only [sdepth] <;> omega
        | false =>
          simp only [translatePass, hw, hrc]
          cases sh <;> simp only [sdepth] <;> omega
    | none =>
      cases hrc : (translatePass tr ch).err with
      | true =>
        simp only [translatePass, hrc]
        cases sh <;> simp only [sdepth] <;> omega
      | false =>
        simp only [translatePass, hrc]
        cases sh <;> simp only [sdepth] <;> omega

theorem renderFixed_hosts (tr : Translator) : ∀ d : Dom, renderFixed tr d →
    ∀ s ∈ hosts d, renderFixed tr s := by
  intro d
  induction d with
  | nil => intro _ s hs; simp [hosts] at hs
  | elem i k va c sh ch sib ihsh ihch ihsib =>
    intro hfix s hs
    simp only [hosts, List.mem_append] at hs
    cases k with
    | some key =>
      simp only [renderFixed] at hfix
      obtain ⟨⟨_, hch⟩, hshfix, hsibfix⟩ := hfix
      rcases hs with h | h | h
      · cases sh with
        | nil => simp at h
        | elem a b c2 d2 e f g =>
          simp only [List.mem_singleton] at h
          subst h
          exact hshfix
      · subst hch
        simp [hosts] at h
      · exact ihsib hsibfix s h
    | none =>
      simp only [renderFixed] at hfix
      obtain ⟨hchfix, hshfix, hsibfix⟩ := hfix
      rcases hs with h | h | h
      · cases sh with
        | nil => simp at h
        | elem a b c2 d2 e f g =>
          simp only [List.mem_singleton] at h
          subst h
          exact hshfix
      · exact ihch hchfix s h
      · exact ihsib hsibfix s h

theorem shadowPass_fixed_out (tr : Translator) (rec : Dom → RenderOut) : ∀ d : Dom,
    (shadowPass rec d).err = false → lightFixed tr d →
    (∀ s ∈ hosts d, (rec s).err = false → renderFixed tr (rec s).doc) →
    renderFixed tr (shadowPass rec d).doc := by
  intro d
  induction d with
  | nil => intro _ _ _; trivial
  | elem i k va c sh ch sib ihsh ihch ihsib =>
    intro herr hlf hrec
    cases sh with
    | nil =>
      cases hrc : (shadowPass rec ch).err with
      | true => simp [shadowPass, hrc] at herr
      | false =>
        have hrs : (shadowPass rec sib).err = false := by
          simpa [shadowPass, hrc] using herr
        have hd : (shadowPass rec (Dom.elem i k va c Dom.nil ch sib)).doc =
            Dom.elem i k va c Dom.nil (shadowPass rec ch).doc (shadowPass rec sib).doc := by
          simp [shadowPass, hrc]
        rw [hd]
        have hrecch : ∀ s ∈ hosts ch, (rec s).err = false → renderFixed tr (rec s).doc :=
          fun s hs => hrec s (by simp [hosts, List.mem_append, hs])
        have hrecsib : ∀ s ∈ hosts sib, (rec s).err = false → renderFixed tr (rec s).doc :=
          fun s hs => hrec s (by simp [hosts, List.mem_append, hs])
        cases k with
        | some key =>
          simp only [lightFixed] at hlf
          obtain ⟨⟨hrend, hch⟩, hlfsib⟩ := hlf
          subst hch
          simp only [renderFixed]
          exact ⟨⟨hrend, by simp [shadowPass]⟩, trivial, ihsib hrs hlfsib hrecsib⟩
        | none =>
          simp only [lightFixed] at hlf
          obtain ⟨hlfch, hlfsib⟩ := hlf
          simp only [renderFixed]
          exact ⟨ihch hrc hlfch hrecch, trivial, ihsib hrs hlfsib hrecsib⟩
    | elem a b c2 d2 e f g =>
      cases hrh : (rec (Dom.elem a b c2 d2 e f g)).err with
      | true => simp [shadowPass, hrh] at herr
      | false =>
        cases hrc : (shadowPass rec ch).err with
        | true => simp [shadowPass, hrh, hrc] at herr
        | false =>
          have hrs : (shadowPass rec sib).err = false := by
            simpa [shadowPass, hrh, hrc] using herr
          have hd : (shadowPass rec
              (Dom.elem i k va c (Dom.elem a b c2 d2 e f g) ch sib)).doc =
              Dom.elem i k va c (rec (Dom.elem a b c2 d2 e f g)).doc
                (shadowPass rec ch).doc (shadowPass rec sib).doc := by
            simp [shadowPass, hrh, hrc]
          rw [hd]
          have hshfix : renderFixed tr (rec (Dom.elem a b c2 d2 e f g)).doc :=
            hrec _ (by simp [hosts]) hrh
          have hrecch : ∀ s ∈ hosts ch, (rec s).err = false → renderFixed tr (rec s).doc :=
            fun s hs => hrec s (by simp [hosts, List.mem_append, hs])
          have hrecsib : ∀ s ∈ hosts sib, (rec s).err = false → renderFixed tr (rec s).doc :=
            fun s hs => hrec s (by simp [hosts, List.mem_append, hs])
          cases k with
          | some key =>
            simp only [lightFixed] at hlf
            obtain ⟨⟨hrend, hch⟩, hlfsib⟩ := hlf
            subst hch
            simp only [renderFixed]
            exact ⟨⟨hrend, by simp [shadowPass]⟩, hshfix, ihsib hrs hlfsib hrecsib⟩
          | none =>
            simp only [lightFixed] at hlf
            obtain ⟨hlfch, hlfsib⟩ := hlf
            simp only [renderFixed]
            exact ⟨ihch hrc hlfch hrecch, hshfix, ihsib hrs hlfsib hrecsib⟩

theorem shadowPass_fixed_id (rec : Dom → RenderOut) : ∀ d : Dom,
    (∀ s ∈ hosts d, (rec s).err = false ∧ (rec s).doc = s) →
    (shadowPass rec d).err = false ∧ (shadowPass rec d).doc = d := by
  intro d
  induction d with
  | nil => intro _; exact ⟨rfl, rfl⟩
  | elem i k va c sh ch sib ihsh ihch ihsib =>
    intro hrec
    cases sh with
    | nil =>
      obtain ⟨hce, hcd⟩ := ihch fun s hs => hrec s (by simp [hosts, List.mem_append, hs])
      obtain ⟨hse, hsd⟩ := ihsib fun s hs => hrec s (by simp [hosts, List.mem_append, hs])
      refine ⟨?_, ?_⟩
      · simp [shadowPass, hce, hse]
      · simp [shadowPass, hce, hse, hcd, hsd]
    | elem a b c2 d2 e f g =>
      obtain ⟨hhe, hhd⟩ := hrec (Dom.elem a b c2 d2 e f g) (by simp [hosts])
      obtain ⟨hce, hcd⟩ := ihch fun s hs => hrec s (by simp [hosts, List.mem_append, hs])
      obtain ⟨hse, hsd⟩ := ihsib fun s hs => hrec s (by simp [hosts, List.mem_append, hs])
      refine ⟨?_, ?_⟩
      · simp [shadowPass, hhe, hce, hse]
      · simp [shadowPass, hhe, hce, hse, hhd, hcd, hsd]

theorem translateF_fix (tr : Translator) : ∀ n : Nat, ∀ d : Dom, sdepth d < n →
    ((translateF n tr d).err = false → renderFixed tr (translateF n tr d).doc) ∧
      (renderFixed tr d →
        (translateF n tr d).err = false ∧ (translateF n tr d).doc = d) := by
  intro n
  induction n with
  | zero => intro d hd; exact absurd hd (Nat.not_lt_zero _)
  | succ n ih =>
    intro d hd
    constructor
    · intro herr
      cases hr1 : (translatePass tr d).err with
      | true => simp [translateF, hr1] at herr
      | false =>
        have herr2 : (shadowPass (translateF n tr) (translatePass tr d).doc).err = false := by
          simpa [translateF, hr1] using herr
        have hlf : lightFixed tr (translatePass tr d).doc :=
          translatePass_lightFixed tr d hr1
        have hdoc : (translateF (Nat.succ n) tr d).doc =
            (shadowPass (translateF n tr) (translatePass tr d).doc).doc := by
          simp [translateF, hr1]
        rw [hdoc]
        refine shadowPass_fixed_out tr (translateF n tr) _ herr2 hlf ?_
        intro s hs hserr
        have h1 : sdepth s < sdepth (translatePass tr d).doc :=
          sdepth_hosts _ s hs
        have h2 : sdepth (translatePass tr d).doc ≤ sdepth d :=
          sdepth_translatePass_le tr d
        exact (ih s (by omega)).1 hserr
    · intro hfix
      obtain ⟨he1, he2⟩ := translatePass_fixed tr d hfix
      have hrec : ∀ s ∈ hosts d,
          (translateF n tr s).err = false ∧ (translateF n tr s).doc = s := by
        intro s hs
        have h1 : sdepth s < sdepth d := sdepth_hosts d s hs
        exact (ih s (by omega)).2 (renderFixed_hosts tr d hfix s hs)
      have hsp := shadowPass_fixed_id (translateF n tr) d hrec
      refine ⟨?_, ?_⟩
      · simp [translateF, he1, he2, hsp.1]
      · simp [translateF, he1, he2, hsp.1, hsp.2]

/-- C8 counterexample: an annotated element whose annotated descendant
throws (its key resolves to a sub-tree and its vars are nonempty).  The
first `apply()` writes the outer element — detaching the descendant — and
then aborts on the detached descendant's thrown `TypeError`, leaving the
following sibling untouched; the second `apply()` no longer sees the
destroyed descendant, runs to completion, and rewrites the sibling: the
two passes produce different rendered output. -/
theorem C8_counterexample :
    ((Translator.mk "en" [("en", .node [("k", .leaf "T"), ("obj", .node [("z", .leaf "w")]),
        ("k2", .leaf "T2")])]).translateNode
      (Dom.elem 1 (Option.some "k") .absent "" .nil
        (Dom.elem 2 (Option.some "obj") (.okJson [("n", "y")]) "" .nil .nil .nil)
        (Dom.elem 3 (Option.some "k2") .absent "orig" .nil .nil .nil))).doc =
      Dom.elem 1 (Option.some "k") .absent "T" .nil .nil
        (Dom.elem 3 (Option.some "k2") .absent "orig" .nil .nil .nil) ∧
    ((Translator.mk "en" [("en", .node [("k", .leaf "T"), ("obj", .node [("z", .leaf "w")]),
        ("k2", .leaf "T2")])]).translateNode
      (Dom.elem 1 (Option.some "k") .absent "T" .nil .nil
        (Dom.elem 3 (Option.some "k2") .absent "orig" .nil .nil .nil))).doc =
      Dom.elem 1 (Option.some "k") .absent "T" .nil .nil
        (Dom.elem 3 (Option.some "k2") .absent "T2" .nil .nil .nil) ∧
    Dom.elem 1 (Option.some "k") .absent "T" .nil .nil
        (Dom.elem 3 (Option.some "k2") .absent "orig" .nil .nil .nil) ≠
      Dom.elem 1 (Option.some "k") .absent "T" .nil .nil
        (Dom.elem 3 (Option.some "k2") .absent "T2" .nil .nil .nil) :=
  ⟨rfl, rfl, by decide⟩

/-- C8 amended: provided the first pass completes without a thrown fault,
`apply()` is idempotent: running it again on its own output (same loaded
table, no intervening load or setLanguage — the pass is a pure function of
the translator state and the document, holding no cache between calls)
again completes and reproduces the same rendered document byte for
byte. -/
theorem C8_amended (tr : Translator) (d : Dom) (h : (tr.apply d).err = false) :
    (tr.apply ((tr.apply d).doc)).err = false ∧
      (tr.apply ((tr.apply d).doc)).doc = (tr.apply d).doc := by
  have hfix : renderFixed tr (tr.apply d).doc :=
    (translateF_fix tr (sdepth d + 1) d (Nat.lt_succ_self _)).1 h
  exact (translateF_fix tr (sdepth ((tr.apply d).doc) + 1) _ (Nat.lt_succ_self _)).2 hfix

theorem C8_amended_witness :
    ((Translator.mk "en" [("en", .node [("a", .leaf "A"), ("b", .leaf "B")])]).apply
        ((Translator.mk "en" [("en", .node [("a", .leaf "A"), ("b", .leaf "B")])]).apply
          (Dom.elem 1 (Option.some "a") .absent ""
            (Dom.elem 2 (Option.some "b") .absent "" .nil .nil .nil) .nil .nil)).doc).doc =
      ((Translator.mk "en" [("en", .node [("a", .leaf "A"), ("b", .leaf "B")])]).apply
        (Dom.elem 1 (Option.some "a") .absent ""
          (Dom.elem 2 (Option.some "b") .absent "" .nil .nil .nil) .nil .nil)).doc :=
  (C8_amended (Translator.mk "en" [("en", .node [("a", .leaf "A"), ("b", .leaf "B")])])
    (Dom.elem 1 (Option.some "a") .absent ""
      (Dom.elem 2 (Option.some "b") .absent "" .nil .nil .nil) .nil .nil) rfl).2
